import Mathlib

/-!
Verification of the sovabids rule-resolution and mapping engine
(`sovabids/rules.py`), against its natural-language specification.

The development shallowly embeds:
  * the nested rule/mapping documents (Python dicts with string leaves),
  * the deep-merge operation (`deep_merge_N`, module `sovabids/dicts.py`,
    modelled from the spec since the module's source is not available),
  * path extraction (`parse_from_regex` / `parse_from_placeholder`,
    module `sovabids/parsers.py`, modelled from the spec and pinned by
    the repository's tests in `tests/test_path_parser.py`),
  * `get_info_from_path`, `apply_rules_to_single_file` and `apply_rules`
    from `sovabids/rules.py`, with the external collaborators (mne-bids
    writer, file system, `exec` hooks, dataset-description updater)
    abstracted as an oracle record (`World`).

Machine-checked statements about each spec claim follow the definitions.
-/

/-! ## Documents: Python dicts with string / list / dict values -/

/-- A Python value as it appears in rule documents: a string leaf, a list,
or a nested dict (association list preserving insertion order). -/
inductive Val where
  | str : String → Val
  | vlist : List Val → Val
  | dict : List (String × Val) → Val
deriving Repr

/-- A rule document / mapping record: ordered association list, as a
Python `dict` with string keys. -/
abbrev Dict := List (String × Val)

/-- `d.get(k)` / `d[k]`: first binding of `k` (Python dicts have unique
keys; on lists with duplicate keys we mirror the first binding). -/
def lookupD (d : Dict) (k : String) : Option Val :=
  match d with
  | [] => none
  | (k2, v) :: t => if k2 = k then some v else lookupD t k

/-- `d[k] = v`: replace the first binding of `k` in place (keeping its
position, as Python dicts do) or append a new binding at the end. -/
def storeD (d : Dict) (k : String) (v : Val) : Dict :=
  match d with
  | [] => [(k, v)]
  | (k2, v2) :: t => if k2 = k then (k2, v) :: t else (k2, v2) :: storeD t k v

/-- `del d[k]`: drop every binding of `k`. -/
def eraseD (d : Dict) (k : String) : Dict :=
  d.filter (fun kv => !(kv.1 = k : Bool))

/-- Top-level keys of a document. -/
def keysD (d : Dict) : List String := d.map Prod.fst

/-- Lookup along a dot-path of keys, descending through nested dicts. -/
def lookupPathD (d : Dict) : List String → Option Val
  | [] => some (Val.dict d)
  | k :: ks =>
    match lookupD d k with
    | some (Val.dict d2) => lookupPathD d2 ks
    | some v => if ks.isEmpty then some v else none
    | none => none

/-- Assign a value along a dot-path, creating intermediate dicts as
needed (spec 4.1: "creating intermediate mappings as needed"). -/
def setPathD (d : Dict) : List String → Val → Dict
  | [], _ => d
  | [k], v => storeD d k v
  | k :: k2 :: ks, v =>
    let sub := match lookupD d k with
               | some (Val.dict d2) => d2
               | _ => []
    storeD d k (Val.dict (setPathD sub (k2 :: ks) v))

mutual
/-- Whether a key occurs anywhere in a value (any nesting level). -/
def hasKeyV : Val → String → Bool
  | Val.str _, _ => false
  | Val.vlist l, k => hasKeyL l k
  | Val.dict d, k => hasKeyD d k

/-- Whether a key occurs anywhere in a list value. -/
def hasKeyL : List Val → String → Bool
  | [], _ => false
  | v :: t, k => hasKeyV v k || hasKeyL t k

/-- Whether a key occurs anywhere in a document (any section). -/
def hasKeyD : Dict → String → Bool
  | [], _ => false
  | (k2, v) :: t, k => (k2 = k : Bool) || hasKeyV v k || hasKeyD t k
end

/-- Top-level keys are pairwise distinct. -/
def distinctKeys : Dict → Bool
  | [] => true
  | (k, _) :: t => !(t.any (fun kv => kv.1 = k)) && distinctKeys t

mutual
/-- Keys are pairwise distinct at every nesting level of a value. -/
def nodupKeysV : Val → Bool
  | Val.str _ => true
  | Val.vlist l => nodupKeysL l
  | Val.dict d => distinctKeys d && nodupKeysD d

/-- Keys are pairwise distinct at every nesting level, in each list item. -/
def nodupKeysL : List Val → Bool
  | [] => true
  | v :: t => nodupKeysV v && nodupKeysL t

/-- Keys are pairwise distinct at every nesting level of a document. -/
def nodupKeysD : Dict → Bool
  | [] => true
  | (_, v) :: t => nodupKeysV v && nodupKeysD t
end

/-! ## Deep merge

Modelled from the spec: module `sovabids/dicts.py` (`deep_merge_N`) is not
among the available sources.  Spec 4.2: merge the list left to right; for a
key held as a mapping on both sides merge recursively, otherwise the later
document's value fully replaces the earlier one; inputs are not mutated;
the empty list yields the empty document. -/

mutual
/-- Merge a later value over an earlier one: dict-with-dict merges
recursively, any other collision is full replacement by the later value. -/
def deepMergeVal : Val → Val → Val
  | Val.dict a, Val.dict b => Val.dict (deepMergeInto a b)
  | _, b => b

/-- Merge document `b` into accumulator `a`, key by key in `b`'s order. -/
def deepMergeInto (a : Dict) : Dict → Dict
  | [] => a
  | (k, v) :: rest =>
      let v2 := match lookupD a k with
                 | some old => deepMergeVal old v
                 | none => v
      deepMergeInto (storeD a k v2) rest
end

/-- Modelled from the spec: `deep_merge_N` of the missing module
`sovabids/dicts.py` — left-to-right fold of the deep merge over the list,
starting from the empty document. -/
def deep_merge_N (ds : List Dict) : Dict :=
  ds.foldl (fun acc d => deepMergeInto acc d) []

/-! ### Merge lemmas -/

theorem lookupD_storeD_self (d : Dict) (k : String) (v : Val) :
    lookupD (storeD d k v) k = some v := by
  induction d with
  | nil => simp [storeD, lookupD]
  | cons kv t ih =>
    obtain ⟨k2, v2⟩ := kv
    by_cases h : k2 = k
    · simp [storeD, lookupD, h]
    · simp [storeD, lookupD, h, ih]

theorem lookupD_storeD_other (d : Dict) (k k2 : String) (v : Val) (h : k2 ≠ k) :
    lookupD (storeD d k v) k2 = lookupD d k2 := by
  have h2 : k ≠ k2 := Ne.symm h
  induction d with
  | nil => simp [storeD, lookupD, h2]
  | cons kv t ih =>
    obtain ⟨k3, v3⟩ := kv
    by_cases h3 : k3 = k
    · subst h3
      simp [storeD, lookupD, h2]
    · by_cases h4 : k3 = k2
      · simp [storeD, lookupD, h3, h4, h]
      · simp [storeD, lookupD, h3, h4, ih]

/-- Keys absent from the merged-in document keep their value. -/
theorem lookupD_deepMergeInto_notin (b : Dict) :
    ∀ (a : Dict) (k : String), lookupD b k = none →
      lookupD (deepMergeInto a b) k = lookupD a k := by
  induction b with
  | nil => intro a k _; rfl
  | cons kv rest ih =>
    intro a k hk
    obtain ⟨k2, v⟩ := kv
    have hne : k2 ≠ k := by
      intro h
      simp [lookupD, h] at hk
    have hrest : lookupD rest k = none := by
      simpa [lookupD, hne] using hk
    simp only [deepMergeInto]
    rw [ih _ _ hrest, lookupD_storeD_other _ _ _ _ (Ne.symm hne)]

/-- A non-mapping value (string or sequence): replaced wholesale on merge. -/
def isLeaf : Val → Bool
  | Val.dict _ => false
  | _ => true

theorem lookupD_eraseD_self (d : Dict) (k : String) :
    lookupD (eraseD d k) k = none := by
  induction d with
  | nil => rfl
  | cons kv t ih =>
    obtain ⟨k2, v⟩ := kv
    by_cases h : k2 = k
    · simpa [eraseD, h] using ih
    · simpa [eraseD, lookupD, h] using ih

theorem lookupD_append (a b : Dict) (k : String) :
    lookupD (a ++ b) k = ((lookupD a k).or (lookupD b k)) := by
  induction a with
  | nil => simp [lookupD]
  | cons kv t ih =>
    obtain ⟨k2, v⟩ := kv
    by_cases h : k2 = k
    · simp [lookupD, h]
    · simp [lookupD, h, ih]

theorem storeD_of_lookup_none (d : Dict) (k : String) (v : Val)
    (h : lookupD d k = none) : storeD d k v = d ++ [(k, v)] := by
  induction d with
  | nil => rfl
  | cons kv t ih =>
    obtain ⟨k2, v2⟩ := kv
    by_cases h2 : k2 = k
    · simp [lookupD, h2] at h
    · have ht : lookupD t k = none := by simpa [lookupD, h2] using h
      simp [storeD, h2, ih ht]

theorem lookupD_none_of_any_false (l : Dict) (k : String)
    (h : l.any (fun kv => kv.1 = k) = false) : lookupD l k = none := by
  induction l with
  | nil => rfl
  | cons kv t ih =>
    obtain ⟨k2, v2⟩ := kv
    simp only [List.any_cons, Bool.or_eq_false_iff] at h
    obtain ⟨h1, h2⟩ := h
    have hk2 : k2 ≠ k := by
      intro hh
      simp [hh] at h1
    simp [lookupD, hk2, ih h2]

theorem lookupD_none_of_distinct_head (rest : Dict) (k : String) (v : Val)
    (h : distinctKeys ((k, v) :: rest) = true) : lookupD rest k = none := by
  apply lookupD_none_of_any_false
  simp only [distinctKeys, Bool.and_eq_true, Bool.not_eq_true'] at h
  exact h.1

theorem distinctKeys_tail (kv : String × Val) (t : Dict)
    (h : distinctKeys (kv :: t) = true) : distinctKeys t = true := by
  obtain ⟨k, v⟩ := kv
  simp only [distinctKeys, Bool.and_eq_true] at h
  exact h.2

/-- Merging a document with pairwise-distinct keys into an accumulator that
binds none of its keys is plain concatenation. -/
theorem deepMergeInto_append (b : Dict) :
    ∀ a : Dict, distinctKeys b = true →
      (∀ k vb, lookupD b k = some vb → lookupD a k = none) →
      deepMergeInto a b = a ++ b := by
  induction b with
  | nil => intro a _ _; simp [deepMergeInto]
  | cons kv rest ih =>
    intro a hd hnone
    obtain ⟨k, v⟩ := kv
    have ha : lookupD a k = none := hnone k v (by simp [lookupD])
    have hrest : lookupD rest k = none := lookupD_none_of_distinct_head rest k v hd
    simp only [deepMergeInto, ha]
    rw [storeD_of_lookup_none a k v ha]
    rw [ih (a ++ [(k, v)]) (distinctKeys_tail _ _ hd) ?_]
    · simp
    · intro k2 vb hb
      have hk2 : k2 ≠ k := by
        intro hh
        subst hh
        rw [hrest] at hb
        exact Option.noConfusion hb
      have ha2 : lookupD a k2 = none := by
        apply hnone k2 vb
        simp [lookupD, Ne.symm hk2, hb]
      rw [lookupD_append]
      simp [ha2, lookupD, Ne.symm hk2]

/-- Merging into the empty accumulator is the identity on documents with
pairwise-distinct top-level keys. -/
theorem deepMergeInto_nil (b : Dict) (h : distinctKeys b = true) :
    deepMergeInto [] b = b := by
  have := deepMergeInto_append b [] h (fun k vb _ => rfl)
  simpa using this

/-- Looking up a key bound in the merged-in document: the result is that
binding, merged over whatever the accumulator held. -/
theorem lookupD_deepMergeInto_found (b : Dict) :
    ∀ (a : Dict) (k : String) (vb : Val),
      distinctKeys b = true → lookupD b k = some vb →
      lookupD (deepMergeInto a b) k =
        some (match lookupD a k with
              | some va => deepMergeVal va vb
              | none => vb) := by
  induction b with
  | nil => intro a k vb _ hb; exact Option.noConfusion hb
  | cons kv rest ih =>
    intro a k vb hd hb
    obtain ⟨k2, v⟩ := kv
    by_cases h : k2 = k
    · subst h
      have hvb : v = vb := by
        simpa [lookupD] using hb
      subst hvb
      have hrest : lookupD rest k2 = none := lookupD_none_of_distinct_head rest k2 v hd
      simp only [deepMergeInto]
      rw [lookupD_deepMergeInto_notin rest _ _ hrest, lookupD_storeD_self]
    · have hb2 : lookupD rest k = some vb := by
        simpa [lookupD, h] using hb
      simp only [deepMergeInto]
      rw [ih _ _ _ (distinctKeys_tail _ _ hd) hb2]
      rw [lookupD_storeD_other _ _ _ _ (Ne.symm h)]

theorem nodupKeysV_of_lookupD (d : Dict) :
    ∀ (k : String) (v : Val), nodupKeysD d = true → lookupD d k = some v →
      nodupKeysV v = true := by
  induction d with
  | nil => intro k v _ hv; exact Option.noConfusion hv
  | cons kv t ih =>
    intro k v hn hv
    obtain ⟨k2, v2⟩ := kv
    simp only [nodupKeysD, Bool.and_eq_true] at hn
    by_cases h : k2 = k
    · have : v2 = v := by simpa [lookupD, h] using hv
      subst this
      exact hn.1
    · exact ih k v hn.2 (by simpa [lookupD, h] using hv)

/-- deepMergeVal with a non-mapping later value is full replacement. -/
theorem deepMergeVal_leaf (a b : Val) (h : isLeaf b = true) :
    deepMergeVal a b = b := by
  cases a <;> cases b <;> simp_all [deepMergeVal, isLeaf]

/-- Extracted leaves win: a non-mapping value reachable in the merged-in
document at some key path is present unchanged in the merge result,
whatever the accumulator held there (spec 4.4.1 precedence policy). -/
theorem lookupPathD_deepMergeInto_leaf :
    ∀ (ks : List String) (E a : Dict) (v : Val),
      nodupKeysV (Val.dict E) = true → isLeaf v = true →
      lookupPathD E ks = some v →
      lookupPathD (deepMergeInto a E) ks = some v := by
  intro ks
  induction ks with
  | nil =>
    intro E a v _ hleaf hE
    have : v = Val.dict E := by
      have := hE
      simp [lookupPathD] at this
      exact this.symm
    subst this
    simp [isLeaf] at hleaf
  | cons k ks ih =>
    intro E a v hnod hleaf hE
    simp only [nodupKeysV, Bool.and_eq_true] at hnod
    obtain ⟨hdist, hdeep⟩ := hnod
    simp only [lookupPathD] at hE
    cases hEk : lookupD E k with
    | none => rw [hEk] at hE; exact Option.noConfusion hE
    | some ve =>
      rw [hEk] at hE
      have hfound := lookupD_deepMergeInto_found E a k ve hdist hEk
      cases ve with
      | dict E2 =>
        have hsub : nodupKeysV (Val.dict E2) = true :=
          nodupKeysV_of_lookupD E k (Val.dict E2) hdeep hEk
        cases hak : lookupD a k with
        | none =>
          rw [hak] at hfound
          simp only [lookupPathD, hfound]
          cases ks with
          | nil =>
            simp [lookupPathD] at hE ⊢
            exact hE
          | cons k2 ks2 => exact hE
        | some va =>
          rw [hak] at hfound
          cases va with
          | dict A2 =>
            simp only [deepMergeVal] at hfound
            simp only [lookupPathD, hfound]
            cases ks with
            | nil =>
              simp only [lookupPathD] at hE
              have : Val.dict E2 = v := Option.some.inj hE
              subst this
              simp [isLeaf] at hleaf
            | cons k2 ks2 =>
              exact ih E2 A2 v hsub hleaf hE
          | str s =>
            simp only [deepMergeVal] at hfound
            simp only [lookupPathD, hfound]
            exact hE
          | vlist l =>
            simp only [deepMergeVal] at hfound
            simp only [lookupPathD, hfound]
            exact hE
      | str s =>
        have hrepl : deepMergeVal (match lookupD a k with
              | some va => va
              | none => Val.str s) (Val.str s) = Val.str s := by
          cases lookupD a k with
          | none => rfl
          | some va => cases va <;> rfl
        have hv : (if ks.isEmpty then some (Val.str s) else none) = some v := hE
        cases ks with
        | nil =>
          have hvv : Val.str s = v := by simpa using hv
          subst hvv
          cases hak : lookupD a k with
          | none =>
            rw [hak] at hfound
            simp [lookupPathD, hfound]
          | some va =>
            rw [hak] at hfound
            have hred : lookupD (deepMergeInto a E) k = some (Val.str s) := by
              rw [hfound]
              cases va <;> rfl
            simp [lookupPathD, hred]
        | cons k2 ks2 => simp at hv
      | vlist l =>
        have hv : (if ks.isEmpty then some (Val.vlist l) else none) = some v := hE
        cases ks with
        | nil =>
          have hvv : Val.vlist l = v := by simpa using hv
          subst hvv
          cases hak : lookupD a k with
          | none =>
            rw [hak] at hfound
            simp [lookupPathD, hfound]
          | some va =>
            rw [hak] at hfound
            have hred : lookupD (deepMergeInto a E) k = some (Val.vlist l) := by
              rw [hfound]
              cases va <;> rfl
            simp [lookupPathD, hred]
        | cons k2 ks2 => simp at hv

/-- A key path the merged-in document does not touch: it descends through
dicts of `E` until a key that `E` does not bind. -/
def untouchedD (e : Dict) : List String → Bool
  | [] => false
  | k :: ks =>
    match lookupD e k with
    | none => true
    | some (Val.dict e2) => untouchedD e2 ks
    | some _ => false

theorem lookupPathD_none_of_untouched :
    ∀ (ks : List String) (e : Dict), untouchedD e ks = true →
      lookupPathD e ks = none := by
  intro ks
  induction ks with
  | nil => intro e h; simp [untouchedD] at h
  | cons k ks ih =>
    intro e h
    simp only [untouchedD] at h
    cases hek : lookupD e k with
    | none => simp [lookupPathD, hek]
    | some v =>
      rw [hek] at h
      cases v with
      | dict e2 => simp only [lookupPathD, hek]; exact ih e2 h
      | str s => simp at h
      | vlist l => simp at h

/-- Untouched paths are preserved unchanged by the merge: the merge result
agrees with the accumulator along any key path `E` does not touch
(spec 4.4.1: base keys not present in the extraction are preserved). -/
theorem lookupPathD_deepMergeInto_untouched :
    ∀ (ks : List String) (E a : Dict),
      nodupKeysV (Val.dict E) = true → untouchedD E ks = true →
      lookupPathD (deepMergeInto a E) ks = lookupPathD a ks := by
  intro ks
  induction ks with
  | nil => intro E a _ h; simp [untouchedD] at h
  | cons k ks ih =>
    intro E a hnod hu
    simp only [nodupKeysV, Bool.and_eq_true] at hnod
    obtain ⟨hdist, hdeep⟩ := hnod
    simp only [untouchedD] at hu
    cases hEk : lookupD E k with
    | none =>
      have hm := lookupD_deepMergeInto_notin E a k hEk
      simp only [lookupPathD, hm]
    | some ve =>
      rw [hEk] at hu
      cases ve with
      | str s => simp at hu
      | vlist l => simp at hu
      | dict E2 =>
        have hsub : nodupKeysV (Val.dict E2) = true :=
          nodupKeysV_of_lookupD E k (Val.dict E2) hdeep hEk
        have hfound := lookupD_deepMergeInto_found E a k (Val.dict E2) hdist hEk
        cases hak : lookupD a k with
        | none =>
          rw [hak] at hfound
          simp only [lookupPathD, hfound, hak]
          exact lookupPathD_none_of_untouched ks E2 hu
        | some va =>
          rw [hak] at hfound
          cases va with
          | dict A2 =>
            simp only [deepMergeVal] at hfound
            simp only [lookupPathD, hfound, hak]
            exact ih E2 A2 hsub hu
          | str s =>
            cases ks with
            | nil => simp [untouchedD] at hu
            | cons k2 ks2 =>
              have hred : lookupD (deepMergeInto a E) k = some (Val.dict E2) := by
                rw [hfound]; rfl
              simp only [lookupPathD, hred, hak]
              have hnone := lookupPathD_none_of_untouched (k2 :: ks2) E2 hu
              simp only [lookupPathD] at hnone
              rw [hnone]
              simp
          | vlist l =>
            cases ks with
            | nil => simp [untouchedD] at hu
            | cons k2 ks2 =>
              have hred : lookupD (deepMergeInto a E) k = some (Val.dict E2) := by
                rw [hfound]; rfl
              simp only [lookupPathD, hred, hak]
              have hnone := lookupPathD_none_of_untouched (k2 :: ks2) E2 hu
              simp only [lookupPathD] at hnone
              rw [hnone]
              simp

/-! ## Regular-expression matching

Modelled from the spec: module `sovabids/parsers.py` is not among the
available sources.  Patterns are restricted to the constructs the
repository's rules and tests use: literal characters, escaped literals,
the any-character atom `.`, and greedy / lazy `*` and `+` quantifiers,
optionally wrapped in a capturing group.  Matching follows Python `re`
backtracking order: alternatives at one position are tried longest-first
for greedy quantifiers and shortest-first for lazy ones. -/

/-- A single-character matcher: `.` or a literal character. -/
inductive Atom where
  | anyc : Atom
  | chr : Char → Atom
deriving Repr, DecidableEq

/-- Quantifier on an atom (`one` = no quantifier). -/
inductive Quant where
  | one : Quant
  | starG : Quant
  | starL : Quant
  | plusG : Quant
  | plusL : Quant
deriving Repr, DecidableEq

/-- One element of a pattern: an atom, its quantifier, and whether it is
wrapped in a capturing group. -/
structure Piece where
  atom : Atom
  quant : Quant
  capture : Bool
deriving Repr, DecidableEq

def atomMatches : Atom → Char → Bool
  | Atom.anyc, _ => true
  | Atom.chr c2, c => c2 == c

/-- Consume exactly `k` characters, each matching the atom. -/
def takeAtom (a : Atom) : Nat → List Char → Option (List Char × List Char)
  | 0, s => some ([], s)
  | _+1, [] => none
  | k+1, c :: t =>
    if atomMatches a c then
      match takeAtom a k t with
      | some (cons, rest) => some (c :: cons, rest)
      | none => none
    else none

/-- Repetition counts to try, in Python backtracking priority order. -/
def countChoices (q : Quant) (n : Nat) : List Nat :=
  match q with
  | Quant.one => [1]
  | Quant.starL => List.range (n + 1)
  | Quant.starG => (List.range (n + 1)).reverse
  | Quant.plusL => (List.range n).map (fun i => i + 1)
  | Quant.plusG => ((List.range n).map (fun i => i + 1)).reverse

/-- First success of `f` over the list, in order (backtracking). -/
def firstSome (f : Nat → Option α) : List Nat → Option α
  | [] => none
  | k :: ks =>
    match f k with
    | some x => some x
    | none => firstSome f ks

/-- Match the pieces against a prefix of `s` (the end of the input need
not be reached), returning the captured substrings in group order for the
first alternative in backtracking priority order. -/
def matchPieces : List Piece → List Char → Option (List String)
  | [], _ => some []
  | p :: ps, s =>
    firstSome (fun k =>
      match takeAtom p.atom k s with
      | none => none
      | some (cons, rest) =>
        match matchPieces ps rest with
        | some caps => some (if p.capture then String.mk cons :: caps else caps)
        | none => none)
      (countChoices p.quant s.length)

/-- `re.search` semantics: try each start position left to right, taking
the leftmost position at which the pattern matches. -/
def searchFrom (re : List Piece) : List Char → Option (List String)
  | [] => matchPieces re []
  | c :: t =>
    match matchPieces re (c :: t) with
    | some caps => some caps
    | none => searchFrom re t

/-- Paths are normalized to forward-slash (POSIX) form before matching. -/
def normalizePath (s : String) : String :=
  String.mk (s.data.map (fun c => if c = '\\' then '/' else c))

/-- Split a character list on a separator, Python `str.split` style. -/
def splitOnC (sep : Char) : List Char → List (List Char)
  | [] => [[]]
  | c :: t =>
    if c = sep then [] :: splitOnC sep t
    else
      match splitOnC sep t with
      | h :: r => (c :: h) :: r
      | [] => [[c]]

/-- Split a field name on dots. -/
def dotSplit (s : String) : List String :=
  (splitOnC '.' s.data).map String.mk

/-- Assign the captured texts into a nested document, one dot-path field
per capture group, in left-to-right group order. -/
def buildDoc (fields : List String) (caps : List String) : Dict :=
  (List.zip fields caps).foldl
    (fun d fc => setPathD d (dotSplit fc.1) (Val.str fc.2)) []

/-- Number of capturing groups in a pattern. -/
def numGroups (re : List Piece) : Nat :=
  (re.filter (fun p => p.capture)).length

/-- Modelled from the spec: the matching core of `parse_from_regex` of the
missing module `sovabids/parsers.py`, over an already-compiled pattern.
The path is normalized to forward slashes; extraction fails when the
field count differs from the capture-group count or when the pattern
matches nowhere.  The spec's sentence that matching is anchored at the
start of the path is contradicted by the repository's own tests
(`tests/test_path_parser.py`, `test_parse_from_regex`), which require a
match that cannot start at the first character; matching therefore uses
leftmost-search semantics, which satisfies every test assertion. -/
def parse_from_regexAST (path : String) (re : List Piece) (fields : List String) :
    Option Dict :=
  if numGroups re = fields.length then
    match searchFrom re (normalizePath path).data with
    | some caps => some (buildDoc fields caps)
    | none => none
  else none

/-- Characters with special meaning in the supported pattern subset. -/
def isRegexSpecial (c : Char) : Bool :=
  c = '(' || c = ')' || c = '*' || c = '+' || c = '?' || c = '\\' || c = '.' ||
  c = '[' || c = ']' || c = '\x7b' || c = '\x7d' || c = '|' || c = '^' || c = '$'

/-- Compile a pattern string of the supported subset into pieces.  Fuel is
the string length plus one; every step consumes at least one character. -/
def compileREAux : Nat → List Char → Option (List Piece)
  | 0, _ => none
  | _+1, [] => some []
  | fuel+1, '\\' :: c :: rest =>
      (compileREAux fuel rest).map (fun ps => ⟨Atom.chr c, Quant.one, false⟩ :: ps)
  | _+1, ['\\'] => none
  | fuel+1, '(' :: rest =>
    match rest with
    | c :: rest2 =>
      match (if c = '.' then some Atom.anyc
             else if isRegexSpecial c then none
             else some (Atom.chr c)) with
      | none => none
      | some a =>
        match rest2 with
        | '*' :: '?' :: ')' :: r =>
            (compileREAux fuel r).map (fun ps => ⟨a, Quant.starL, true⟩ :: ps)
        | '*' :: ')' :: r =>
            (compileREAux fuel r).map (fun ps => ⟨a, Quant.starG, true⟩ :: ps)
        | '+' :: '?' :: ')' :: r =>
            (compileREAux fuel r).map (fun ps => ⟨a, Quant.plusL, true⟩ :: ps)
        | '+' :: ')' :: r =>
            (compileREAux fuel r).map (fun ps => ⟨a, Quant.plusG, true⟩ :: ps)
        | ')' :: r =>
            (compileREAux fuel r).map (fun ps => ⟨a, Quant.one, true⟩ :: ps)
        | _ => none
    | [] => none
  | fuel+1, c :: rest =>
    if isRegexSpecial c && !(c = '.' : Bool) then none
    else
      let a := if c = '.' then Atom.anyc else Atom.chr c
      match rest with
      | '*' :: '?' :: r =>
          (compileREAux fuel r).map (fun ps => ⟨a, Quant.starL, false⟩ :: ps)
      | '*' :: r =>
          (compileREAux fuel r).map (fun ps => ⟨a, Quant.starG, false⟩ :: ps)
      | '+' :: '?' :: r =>
          (compileREAux fuel r).map (fun ps => ⟨a, Quant.plusL, false⟩ :: ps)
      | '+' :: r =>
          (compileREAux fuel r).map (fun ps => ⟨a, Quant.plusG, false⟩ :: ps)
      | _ =>
          (compileREAux fuel rest).map (fun ps => ⟨a, Quant.one, false⟩ :: ps)

/-- Compile a pattern string into pieces (`none` on constructs outside
the supported subset). -/
def compileRE (pattern : String) : Option (List Piece) :=
  compileREAux (pattern.length + 1) pattern.data

/-- Modelled from the spec: `parse_from_regex` of the missing module
`sovabids/parsers.py`, taking the pattern as a string, as the source does.
A single string for `fields` denotes the one-field list (spec 4.1); that
lifting is applied by the callers in this embedding. -/
def parse_from_regex (path pattern : String) (fields : List String) : Option Dict :=
  match compileRE pattern with
  | none => none
  | some re => parse_from_regexAST path re fields

mutual
/-- Entries at odd positions (the placeholder names of a split pattern). -/
def oddEntries : List (List Char) → List (List Char)
  | [] => []
  | _ :: t => evenEntries t

/-- Entries at even positions (the literal runs of a split pattern). -/
def evenEntries : List (List Char) → List (List Char)
  | [] => []
  | x :: t => x :: oddEntries t
end

mutual
/-- Lower the pieces of a split placeholder pattern, starting at a
literal run: literal characters become escaped-literal pieces. -/
def lowerBorders (matcher : Piece) : List (List Char) → List Piece
  | [] => []
  | lits :: rest =>
      lits.map (fun c => ⟨Atom.chr c, Quant.one, false⟩) ++ lowerBordersOdd matcher rest

/-- Lower the pieces of a split placeholder pattern, starting at a
placeholder: the placeholder becomes one matcher piece. -/
def lowerBordersOdd (matcher : Piece) : List (List Char) → List Piece
  | [] => []
  | _ :: rest => matcher :: lowerBorders matcher rest
end

/-- The default placeholder matcher `(.+)`: a greedy-plus capture group. -/
def defaultMatcher : Piece := ⟨Atom.anyc, Quant.plusG, true⟩

/-- Modelled from the spec: `parse_from_placeholder` of the missing module
`sovabids/parsers.py` — split the pattern on the encloser; pieces at even
positions are escaped literal runs, pieces at odd positions are field
names replaced by the matcher's capture group; delegate to the regex-mode
algorithm with the field names in left-to-right order.  The encloser is
modelled as a single character (default `%`) and the matcher as an
already-compiled single piece (default `(.+)`).  The pattern itself is
normalized to forward-slash form first (spec 3: all path values are
normalized before pattern matching; the repository's tests require
placeholder patterns written with backslash separators to match). -/
def parse_from_placeholder (path pattern : String) (encloser : Char) (matcher : Piece) :
    Option Dict :=
  let borders := splitOnC encloser (normalizePath pattern).data
  parse_from_regexAST path (lowerBorders matcher borders)
    ((oddEntries borders).map String.mk)

/-! ## get_info_from_path (rules.py lines 21-54) -/

/-- Fields value of a path-analysis spec: a single string denotes the
one-field list (spec 4.1); a list must consist of strings. -/
def fieldsOf : Option Val → Option (List String)
  | some (Val.str s) => some [s]
  | some (Val.vlist l) =>
      l.foldr (fun v acc =>
        match v, acc with
        | Val.str s, some r => some (s :: r)
        | _, _ => none) (some [])
  | _ => none

/-- Encloser option of a path-analysis spec: default `%`, modelled as a
single character. -/
def encloserOf : Option Val → Option Char
  | none => some '%'
  | some (Val.str s) =>
    match s.data with
    | [c] => some c
    | _ => none
  | some _ => none

/-- Matcher option of a path-analysis spec: default `(.+)`; a custom
matcher must compile to a single capture-group piece. -/
def matcherOf : Option Val → Option Piece
  | none => some defaultMatcher
  | some (Val.str s) =>
    match compileRE s with
    | some [p] => if p.capture then some p else none
    | _ => none
  | some _ => none

/-- The `non-bids` section of a document, as `rules__.get('non-bids',{})`
(rules.py line 39); a non-mapping value is treated as the empty mapping
here (the source's lookup chain raises in that never-exercised corner). -/
def nonBidsOf (rules : Dict) : Dict :=
  match lookupD rules "non-bids" with
  | some (Val.dict d) => d
  | _ => []

/-- The `pattern` entry of a path-analysis spec, with default `''`
(rules.py line 42); a non-string pattern fails. -/
def patternOf (pa : Dict) : Option String :=
  match lookupD pa "pattern" with
  | some (Val.str s) => some s
  | none => some ""
  | some _ => none

/-- The raw extraction for one path-analysis spec (rules.py lines 42-49):
regex mode when `fields` is present, else placeholder mode. -/
def extractionOf (path : String) (pa : Dict) : Option Dict :=
  match patternOf pa with
  | none => none
  | some pattern =>
    if (lookupD pa "fields").isSome then
      match fieldsOf (lookupD pa "fields") with
      | some fs => parse_from_regex path pattern fs
      | none => none
    else
      match encloserOf (lookupD pa "encloser"), matcherOf (lookupD pa "matcher") with
      | some enc, some m => parse_from_placeholder path pattern enc m
      | _, _ => none

/-- The `patterns_extracted` document of `get_info_from_path`
(rules.py lines 38-51), with the top-level `ignore` key already deleted
(lines 50-51).  `none` propagates an extraction failure (in the source,
an exception from the parser). -/
def extractedOf (path : String) (rules : Dict) : Option Dict :=
  match lookupD (nonBidsOf rules) "path_analysis" with
  | none => some []
  | some (Val.dict pa) =>
    match extractionOf path pa with
    | none => none
    | some e => some (eraseD e "ignore")
  | some _ => none

/-- `get_info_from_path` (rules.py lines 21-54): extract a document from
the path per the `non-bids.path_analysis` spec (regex mode when `fields`
is present, placeholder mode otherwise), delete the top-level `ignore`
key of the extraction, and deep-merge the extracted document over a deep
copy of the rule document (line 53).  `none` propagates an extraction
failure. -/
def get_info_from_path (path : String) (rules : Dict) : Option Dict :=
  match extractedOf path rules with
  | none => none
  | some e => some (deep_merge_N [rules, e])

/-- The rule document carries a `non-bids.path_analysis` spec. -/
def hasPathAnalysis (rules : Dict) : Bool :=
  match lookupD rules "non-bids" with
  | some (Val.dict nb) => (lookupD nb "path_analysis").isSome
  | _ => false

/-! ### The extraction output has pairwise-distinct keys -/

theorem any_key_storeD (t : Dict) (k k2 : String) (v : Val) (h : k2 ≠ k) :
    (storeD t k v).any (fun kv => kv.1 = k2) = t.any (fun kv => kv.1 = k2) := by
  induction t with
  | nil => simp [storeD, h, Ne.symm h]
  | cons kv2 t2 ih =>
    obtain ⟨k3, v3⟩ := kv2
    by_cases h3 : k3 = k
    · subst h3
      simp [storeD]
    · simp [storeD, h3, ih]

theorem distinctKeys_storeD (d : Dict) (k : String) (v : Val)
    (h : distinctKeys d = true) : distinctKeys (storeD d k v) = true := by
  induction d with
  | nil => simp [storeD, distinctKeys]
  | cons kv t ih =>
    obtain ⟨k2, v2⟩ := kv
    simp only [distinctKeys, Bool.and_eq_true, Bool.not_eq_true'] at h
    obtain ⟨h1, h2⟩ := h
    by_cases hk : k2 = k
    · subst hk
      simp only [storeD, if_pos rfl, distinctKeys, Bool.and_eq_true, Bool.not_eq_true']
      exact ⟨h1, h2⟩
    · simp only [storeD, if_neg hk, distinctKeys, Bool.and_eq_true, Bool.not_eq_true']
      constructor
      · rw [any_key_storeD t k k2 v hk]
        exact h1
      · exact ih h2

theorem nodupKeysD_storeD (d : Dict) (k : String) (v : Val)
    (hd : nodupKeysD d = true) (hv : nodupKeysV v = true) :
    nodupKeysD (storeD d k v) = true := by
  induction d with
  | nil => simp [storeD, nodupKeysD, hv]
  | cons kv t ih =>
    obtain ⟨k2, v2⟩ := kv
    simp only [nodupKeysD, Bool.and_eq_true] at hd
    by_cases hk : k2 = k
    · simp only [storeD, if_pos hk, nodupKeysD, Bool.and_eq_true]
      exact ⟨hv, hd.2⟩
    · simp only [storeD, if_neg hk, nodupKeysD, Bool.and_eq_true]
      exact ⟨hd.1, ih hd.2⟩

theorem nodupKeysV_setPathD :
    ∀ (ks : List String) (d : Dict) (v : Val),
      nodupKeysV (Val.dict d) = true → nodupKeysV v = true →
      nodupKeysV (Val.dict (setPathD d ks v)) = true := by
  intro ks
  induction ks with
  | nil => intro d v hd _; simpa [setPathD] using hd
  | cons k ks ih =>
    intro d v hd hv
    simp only [nodupKeysV, Bool.and_eq_true] at hd
    cases ks with
    | nil =>
      simp only [setPathD, nodupKeysV, Bool.and_eq_true]
      exact ⟨distinctKeys_storeD d k v hd.1, nodupKeysD_storeD d k v hd.2 hv⟩
    | cons k2 ks2 =>
      simp only [setPathD, nodupKeysV, Bool.and_eq_true]
      have hsub : nodupKeysV (Val.dict (match lookupD d k with
            | some (Val.dict d2) => d2
            | _ => ([] : Dict))) = true := by
        cases hlk : lookupD d k with
        | none => simp [nodupKeysV, distinctKeys, nodupKeysD]
        | some v2 =>
          cases v2 with
          | dict d2 => exact nodupKeysV_of_lookupD d k (Val.dict d2) hd.2 hlk
          | str s => simp [nodupKeysV, distinctKeys, nodupKeysD]
          | vlist l => simp [nodupKeysV, distinctKeys, nodupKeysD]
      have hrec := ih _ v hsub hv
      constructor
      · exact distinctKeys_storeD d k _ hd.1
      · exact nodupKeysD_storeD d k _ hd.2 hrec

theorem foldl_setPathD_nodup :
    ∀ (z : List (String × String)) (d : Dict),
      nodupKeysV (Val.dict d) = true →
      nodupKeysV (Val.dict (z.foldl
        (fun d2 fc => setPathD d2 (dotSplit fc.1) (Val.str fc.2)) d)) = true := by
  intro z
  induction z with
  | nil => intro d hd; simpa using hd
  | cons fc rest ih =>
    intro d hd
    rw [List.foldl_cons]
    exact ih _ (nodupKeysV_setPathD _ _ _ hd (by simp [nodupKeysV]))

theorem nodupKeysV_buildDoc (fields caps : List String) :
    nodupKeysV (Val.dict (buildDoc fields caps)) = true := by
  have base : nodupKeysV (Val.dict ([] : Dict)) = true := by
    simp [nodupKeysV, distinctKeys, nodupKeysD]
  unfold buildDoc
  exact foldl_setPathD_nodup (List.zip fields caps) [] base

theorem any_filter_false (p q : String × Val → Bool) (t : Dict)
    (h : t.any q = false) : (t.filter p).any q = false := by
  induction t with
  | nil => rfl
  | cons kv t2 ih =>
    simp only [List.any_cons, Bool.or_eq_false_iff] at h
    by_cases hp : p kv
    · simp [List.filter_cons, hp, h.1, ih h.2]
    · simp [List.filter_cons, hp, ih h.2]

theorem distinctKeys_filter (p : String × Val → Bool) (d : Dict)
    (h : distinctKeys d = true) : distinctKeys (d.filter p) = true := by
  induction d with
  | nil => rfl
  | cons kv t ih =>
    obtain ⟨k, v⟩ := kv
    simp only [distinctKeys, Bool.and_eq_true, Bool.not_eq_true'] at h
    by_cases hp : p (k, v)
    · simp only [List.filter_cons, hp, if_pos]
      simp only [distinctKeys, Bool.and_eq_true, Bool.not_eq_true']
      exact ⟨any_filter_false p _ t h.1, ih h.2⟩
    · simp only [List.filter_cons, hp]
      simpa using ih h.2

theorem nodupKeysD_filter (p : String × Val → Bool) (d : Dict)
    (h : nodupKeysD d = true) : nodupKeysD (d.filter p) = true := by
  induction d with
  | nil => rfl
  | cons kv t ih =>
    obtain ⟨k, v⟩ := kv
    simp only [nodupKeysD, Bool.and_eq_true] at h
    by_cases hp : p (k, v)
    · simp only [List.filter_cons, hp, if_pos]
      simp only [nodupKeysD, Bool.and_eq_true]
      exact ⟨h.1, ih h.2⟩
    · simp only [List.filter_cons, hp]
      simpa using ih h.2

theorem nodupKeysV_eraseD (d : Dict) (k : String)
    (h : nodupKeysV (Val.dict d) = true) :
    nodupKeysV (Val.dict (eraseD d k)) = true := by
  simp only [nodupKeysV, Bool.and_eq_true] at h ⊢
  exact ⟨distinctKeys_filter _ _ h.1, nodupKeysD_filter _ _ h.2⟩

theorem parse_from_regexAST_nodup (path : String) (re : List Piece)
    (fs : List String) (d : Dict)
    (h : parse_from_regexAST path re fs = some d) :
    nodupKeysV (Val.dict d) = true := by
  unfold parse_from_regexAST at h
  by_cases hg : numGroups re = fs.length
  · rw [if_pos hg] at h
    cases hs : searchFrom re (normalizePath path).data with
    | none => rw [hs] at h; exact Option.noConfusion h
    | some caps =>
      rw [hs] at h
      have : buildDoc fs caps = d := Option.some.inj h
      subst this
      exact nodupKeysV_buildDoc fs caps
  · rw [if_neg hg] at h
    exact Option.noConfusion h

theorem parse_from_regex_nodup (path pattern : String) (fs : List String) (d : Dict)
    (h : parse_from_regex path pattern fs = some d) :
    nodupKeysV (Val.dict d) = true := by
  unfold parse_from_regex at h
  cases hc : compileRE pattern with
  | none => rw [hc] at h; exact Option.noConfusion h
  | some re => rw [hc] at h; exact parse_from_regexAST_nodup _ _ _ _ h

theorem parse_from_placeholder_nodup (path pattern : String) (enc : Char)
    (m : Piece) (d : Dict)
    (h : parse_from_placeholder path pattern enc m = some d) :
    nodupKeysV (Val.dict d) = true := by
  unfold parse_from_placeholder at h
  exact parse_from_regexAST_nodup _ _ _ _ h

theorem extractionOf_nodup (path : String) (pa e : Dict)
    (h : extractionOf path pa = some e) :
    nodupKeysV (Val.dict e) = true := by
  unfold extractionOf at h
  split at h
  · exact Option.noConfusion h
  · split at h
    · split at h
      · exact parse_from_regex_nodup _ _ _ _ h
      · exact Option.noConfusion h
    · split at h
      · exact parse_from_placeholder_nodup _ _ _ _ _ h
      · exact Option.noConfusion h

/-- The stripped extraction document has pairwise-distinct keys at every
level: it is built by dot-path assignment into an empty document. -/
theorem extractedOf_nodup (path : String) (rules E : Dict)
    (h : extractedOf path rules = some E) :
    nodupKeysV (Val.dict E) = true := by
  unfold extractedOf at h
  split at h
  · have : ([] : Dict) = E := Option.some.inj h
    subst this
    simp [nodupKeysV, distinctKeys, nodupKeysD]
  · split at h
    · exact Option.noConfusion h
    · rename_i pa hpa e he
      have : eraseD e "ignore" = E := Option.some.inj h
      subst this
      exact nodupKeysV_eraseD _ _ (extractionOf_nodup _ _ _ he)
  · exact Option.noConfusion h

theorem extractedOf_no_ignore (path : String) (rules E : Dict)
    (h : extractedOf path rules = some E) :
    lookupD E "ignore" = none := by
  unfold extractedOf at h
  split at h
  · have : ([] : Dict) = E := Option.some.inj h
    subst this
    rfl
  · split at h
    · exact Option.noConfusion h
    · rename_i pa hpa e he
      have : eraseD e "ignore" = E := Option.some.inj h
      subst this
      exact lookupD_eraseD_self e "ignore"
  · exact Option.noConfusion h

/-! ## Claim C3 -/

/-- A concrete rule document for exercising extraction precedence: base
entities plus a placeholder path-analysis spec. -/
def c3rules : Dict :=
  [("entities", Val.dict [("subject", Val.str "A"), ("session", Val.str "1")]),
   ("non-bids", Val.dict [("path_analysis", Val.dict
      [("pattern", Val.str "sub-%entities.subject%.vhdr")])])]

/-- The extraction `c3rules` produces on `data/sub-B.vhdr`. -/
def c3extr : Dict := [("entities", Val.dict [("subject", Val.str "B")])]

/-- C3: for every rule document containing a `non-bids.path_analysis`
spec and every path the pattern matches, `get_info_from_path` returns the
deep merge of the base rule document with the extracted document, in
which every field extracted from the path wins at non-mapping leaves,
while key paths the extraction does not touch keep the base document's
value unchanged. -/
theorem C3_extraction_precedence (path : String) (rules E : Dict)
    (_hpa : hasPathAnalysis rules = true)
    (hdist : distinctKeys rules = true)
    (hE : extractedOf path rules = some E) :
    get_info_from_path path rules = some (deepMergeInto rules E) ∧
    (∀ ks v, isLeaf v = true → lookupPathD E ks = some v →
      lookupPathD (deepMergeInto rules E) ks = some v) ∧
    (∀ ks, untouchedD E ks = true →
      lookupPathD (deepMergeInto rules E) ks = lookupPathD rules ks) := by
  have hnodE := extractedOf_nodup path rules E hE
  have hbase : deepMergeInto [] rules = rules := deepMergeInto_nil rules hdist
  refine ⟨?_, ?_, ?_⟩
  · unfold get_info_from_path
    rw [hE]
    simp [deep_merge_N, hbase]
  · intro ks v hleaf hlk
    exact lookupPathD_deepMergeInto_leaf ks E rules v hnodE hleaf hlk
  · intro ks hu
    exact lookupPathD_deepMergeInto_untouched ks E rules hnodE hu

/-- C3 witness: the theorem applied at a concrete document and path; the
extracted subject `B` overrides the base subject `A`, the base session is
kept. -/
theorem C3_extraction_precedence_witness :
    get_info_from_path "data/sub-B.vhdr" c3rules = some (deepMergeInto c3rules c3extr) ∧
    (∀ ks v, isLeaf v = true → lookupPathD c3extr ks = some v →
      lookupPathD (deepMergeInto c3rules c3extr) ks = some v) ∧
    (∀ ks, untouchedD c3extr ks = true →
      lookupPathD (deepMergeInto c3rules c3extr) ks = lookupPathD c3rules ks) :=
  C3_extraction_precedence "data/sub-B.vhdr" c3rules c3extr (by rfl) (by rfl) (by rfl)

/-! ## Claim C5 -/

/-- A rule document whose path-analysis spec extracts the dotted field
`entities.ignore`; the base document has no `ignore` key anywhere. -/
def c5rules : Dict :=
  [("non-bids", Val.dict [("path_analysis", Val.dict
      [("pattern", Val.str "sub-(.+)"),
       ("fields", Val.str "entities.ignore")])])]

/-- The document `get_info_from_path` returns for `c5rules` on `sub-7`. -/
def c5merged : Dict :=
  [("non-bids", Val.dict [("path_analysis", Val.dict
      [("pattern", Val.str "sub-(.+)"),
       ("fields", Val.str "entities.ignore")])]),
   ("entities", Val.dict [("ignore", Val.str "7")])]

/-- C5 counterexample: only the top-level `ignore` key is deleted
(rules.py lines 50-51); a captured dotted field ending in `ignore`
survives inside a section, so the claim's "no `ignore` key in any
section" fails on this input even though the base document has no
`ignore` key at all. -/
theorem C5_counterexample :
    hasKeyD c5rules "ignore" = false ∧
    get_info_from_path "sub-7" c5rules = some c5merged ∧
    hasKeyD c5merged "ignore" = true := by
  refine ⟨by rfl, by rfl, by rfl⟩

/-- C5 (amended): if the base rule document has no top-level `ignore`
key, the document `get_info_from_path` returns has no top-level `ignore`
key either: a field literally named `ignore` captured from the path is
deleted before merging.  (A dotted field such as `entities.ignore` still
lands nested inside its section.) -/
theorem C5_no_top_level_ignore (path : String) (rules R : Dict)
    (hig : lookupD rules "ignore" = none)
    (hR : get_info_from_path path rules = some R) :
    lookupD R "ignore" = none := by
  unfold get_info_from_path at hR
  cases hE : extractedOf path rules with
  | none => rw [hE] at hR; exact Option.noConfusion hR
  | some E =>
    rw [hE] at hR
    have hEig : lookupD E "ignore" = none := extractedOf_no_ignore path rules E hE
    have hRe : deep_merge_N [rules, E] = R := Option.some.inj hR
    subst hRe
    show lookupD (List.foldl _ [] [rules, E]) "ignore" = none
    simp only [List.foldl_cons, List.foldl_nil]
    rw [lookupD_deepMergeInto_notin E _ _ hEig]
    rw [lookupD_deepMergeInto_notin rules [] _ hig]
    rfl

/-- C5 witness: the amended theorem applied at `c5rules`, whose ignore
field is literally named `ignore` this time, on a concrete path. -/
theorem C5_no_top_level_ignore_witness :
    lookupD
      ((get_info_from_path "sub-7"
        [("non-bids", Val.dict [("path_analysis", Val.dict
            [("pattern", Val.str "sub-(.+)"),
             ("fields", Val.str "ignore")])])]).getD [])
      "ignore" = none := by
  have h := C5_no_top_level_ignore "sub-7"
    [("non-bids", Val.dict [("path_analysis", Val.dict
        [("pattern", Val.str "sub-(.+)"),
         ("fields", Val.str "ignore")])])]
    [("non-bids", Val.dict [("path_analysis", Val.dict
        [("pattern", Val.str "sub-(.+)"),
         ("fields", Val.str "ignore")])])]
    (by rfl) (by rfl)
  simpa using h

/-! ## Claim C6 -/

/-- The pieces of the pattern `sub-(.*?).vhdr`. -/
def c6re : List Piece :=
  [⟨Atom.chr 's', Quant.one, false⟩, ⟨Atom.chr 'u', Quant.one, false⟩,
   ⟨Atom.chr 'b', Quant.one, false⟩, ⟨Atom.chr '-', Quant.one, false⟩,
   ⟨Atom.anyc, Quant.starL, true⟩, ⟨Atom.anyc, Quant.one, false⟩,
   ⟨Atom.chr 'v', Quant.one, false⟩, ⟨Atom.chr 'h', Quant.one, false⟩,
   ⟨Atom.chr 'd', Quant.one, false⟩, ⟨Atom.chr 'r', Quant.one, false⟩]

/-- C6 counterexample: on the repository's own test input
(`test_parse_from_regex`, third case) the pattern `sub-(.*?).vhdr`
succeeds with capture `010002`, as the test asserts, although the pattern
does not match beginning at the path's first character: extraction is not
anchored at the start of the normalized path. -/
theorem C6_counterexample :
    compileRE "sub-(.*?).vhdr" = some c6re ∧
    parse_from_regex "y:\\code\\sovabids\\_data\\lemon\\sub-010002.vhdr"
      "sub-(.*?).vhdr" ["entities.subject"]
      = some [("entities", Val.dict [("subject", Val.str "010002")])] ∧
    matchPieces c6re
      (normalizePath "y:\\code\\sovabids\\_data\\lemon\\sub-010002.vhdr").data
      = none := by
  refine ⟨by rfl, by rfl, by rfl⟩

/-- A successful search is the leftmost match: it matches after dropping
`i` characters, and at no earlier start position. -/
theorem searchFrom_leftmost :
    ∀ (s : List Char) (re : List Piece) (caps : List String),
      searchFrom re s = some caps →
      ∃ i, i ≤ s.length ∧ matchPieces re (s.drop i) = some caps ∧
        ∀ j < i, matchPieces re (s.drop j) = none := by
  intro s
  induction s with
  | nil =>
    intro re caps h
    exact ⟨0, by simp, h, by omega⟩
  | cons c t ih =>
    intro re caps h
    unfold searchFrom at h
    cases hm : matchPieces re (c :: t) with
    | some caps2 =>
      rw [hm] at h
      have : caps2 = caps := Option.some.inj h
      subst this
      exact ⟨0, by simp, hm, by omega⟩
    | none =>
      rw [hm] at h
      obtain ⟨i, hi, hmatch, hnone⟩ := ih re caps h
      refine ⟨i + 1, by simpa using Nat.succ_le_succ hi, by simpa using hmatch, ?_⟩
      intro j hj
      cases j with
      | zero => simpa using hm
      | succ j2 =>
        have : j2 < i := by omega
        simpa using hnone j2 this

/-- C6 (amended): regex-mode matching is an unanchored leftmost search:
when extraction succeeds, the pattern matches after dropping the least
possible number of leading characters of the normalized path (and the
match need not consume the rest of the path). -/
theorem C6_leftmost_search (path pattern : String) (re : List Piece)
    (fields : List String) (d : Dict)
    (hc : compileRE pattern = some re)
    (h : parse_from_regex path pattern fields = some d) :
    ∃ i caps, i ≤ (normalizePath path).data.length ∧
      matchPieces re ((normalizePath path).data.drop i) = some caps ∧
      (∀ j < i, matchPieces re ((normalizePath path).data.drop j) = none) ∧
      d = buildDoc fields caps := by
  unfold parse_from_regex at h
  rw [hc] at h
  have h2 : parse_from_regexAST path re fields = some d := h
  unfold parse_from_regexAST at h2
  by_cases hg : numGroups re = fields.length
  · rw [if_pos hg] at h2
    cases hs : searchFrom re (normalizePath path).data with
    | none => rw [hs] at h2; exact Option.noConfusion h2
    | some caps =>
      rw [hs] at h2
      obtain ⟨i, hi, hmatch, hnone⟩ := searchFrom_leftmost _ _ _ hs
      exact ⟨i, caps, hi, hmatch, hnone, (Option.some.inj h2).symm⟩
  · rw [if_neg hg] at h2
    exact Option.noConfusion h2

/-- C6 witness: the leftmost-search theorem at the test input. -/
theorem C6_leftmost_search_witness :
    ∃ i caps,
      i ≤ (normalizePath "y:\\code\\sovabids\\_data\\lemon\\sub-010002.vhdr").data.length ∧
      matchPieces c6re
        ((normalizePath "y:\\code\\sovabids\\_data\\lemon\\sub-010002.vhdr").data.drop i)
        = some caps ∧
      (∀ j < i, matchPieces c6re
        ((normalizePath "y:\\code\\sovabids\\_data\\lemon\\sub-010002.vhdr").data.drop j)
        = none) ∧
      [("entities", Val.dict [("subject", Val.str "010002")])]
        = buildDoc ["entities.subject"] caps :=
  C6_leftmost_search "y:\\code\\sovabids\\_data\\lemon\\sub-010002.vhdr"
    "sub-(.*?).vhdr" c6re ["entities.subject"]
    [("entities", Val.dict [("subject", Val.str "010002")])] (by rfl) (by rfl)

/-! ## Claim C7 -/

theorem dropWhile_length_le (p : Char → Bool) (l : List Char) :
    (l.dropWhile p).length ≤ l.length := by
  induction l with
  | nil => simp [List.dropWhile]
  | cons c t ih =>
    by_cases h : p c
    · simp only [List.dropWhile, h, List.length_cons]
      omega
    · simp [List.dropWhile, h]

mutual
/-- The claim-side lowering: scan the placeholder pattern left to right,
escaping every literal character into a literal piece and replacing every
`%name%` placeholder with the default matcher's capture group, collecting
the field names in left-to-right order.  This state is outside any
placeholder. -/
def scanOutside : List Char → List Piece × List String
  | [] => ([], [])
  | '%' :: rest => scanInside [] rest
  | c :: rest =>
    let pr := scanOutside rest
    (⟨Atom.chr c, Quant.one, false⟩ :: pr.1, pr.2)

/-- Scanning state inside a placeholder, accumulating the (reversed)
field name until the closing encloser (or the end of the pattern). -/
def scanInside (name : List Char) : List Char → List Piece × List String
  | [] => ([defaultMatcher], [String.mk name.reverse])
  | '%' :: rest =>
    let pr := scanOutside rest
    (defaultMatcher :: pr.1, String.mk name.reverse :: pr.2)
  | c :: rest => scanInside (c :: name) rest
end

/-- The claim-side lowering of a placeholder pattern. -/
def scanPlaceholder (L : List Char) : List Piece × List String :=
  scanOutside L

theorem splitOnC_ne_nil (sep : Char) (L : List Char) : splitOnC sep L ≠ [] := by
  cases L with
  | nil => simp [splitOnC]
  | cons c t =>
    by_cases h : c = sep
    · simp [splitOnC, h]
    · simp only [splitOnC, if_neg h]
      cases splitOnC sep t <;> simp

/-- Structure of a split: the head is the longest separator-free run; the
tail resumes after the first separator when there is one. -/
theorem splitOnC_head_tail (sep : Char) (L : List Char) :
    splitOnC sep L = L.takeWhile (fun c => !(c = sep : Bool)) ::
      (match L.dropWhile (fun c => !(c = sep : Bool)) with
       | [] => []
       | _ :: t => splitOnC sep t) := by
  induction L with
  | nil => simp [splitOnC]
  | cons c t ih =>
    by_cases h : c = sep
    · simp [splitOnC, h, List.takeWhile_cons, List.dropWhile_cons]
    · have hb : (!(c = sep : Bool)) = true := by simp [h]
      simp only [splitOnC, if_neg h, List.takeWhile_cons, List.dropWhile_cons, hb,
        if_true, ih]

theorem scanInside_spec (L : List Char) : ∀ (name : List Char),
    scanInside name L =
      (defaultMatcher ::
        (scanOutside ((L.dropWhile (fun c => !(c = '%' : Bool))).drop 1)).1,
       String.mk (name.reverse ++ L.takeWhile (fun c => !(c = '%' : Bool))) ::
        (scanOutside ((L.dropWhile (fun c => !(c = '%' : Bool))).drop 1)).2) := by
  induction L with
  | nil => intro name; simp [scanInside, scanOutside]
  | cons c t ih =>
    intro name
    by_cases hc : c = '%'
    · subst hc
      simp [scanInside, List.takeWhile_cons, List.dropWhile_cons]
    · have hb : (!(c = '%' : Bool)) = true := by simp [hc]
      simp only [scanInside, hc, List.takeWhile_cons, List.dropWhile_cons, hb, if_true]
      rw [ih (c :: name)]
      simp

/-- The split-based lowering of the placeholder pattern (the modelled
source behaviour) agrees with the claim-side scan, both for the pieces
and for the field-name list. -/
theorem scan_eq_split_aux :
    ∀ (n : Nat) (L : List Char), L.length ≤ n →
      lowerBorders defaultMatcher (splitOnC '%' L) = (scanOutside L).1 ∧
      (oddEntries (splitOnC '%' L)).map String.mk = (scanOutside L).2 := by
  intro n
  induction n with
  | zero =>
    intro L hL
    have hnil : L = [] := List.length_eq_zero.mp (Nat.le_zero.mp hL)
    subst hnil
    exact ⟨rfl, rfl⟩
  | succ n ih =>
    intro L hL
    cases L with
    | nil => exact ⟨rfl, rfl⟩
    | cons c t =>
      have ht : t.length ≤ n := by
        simp only [List.length_cons] at hL
        omega
      by_cases hc : c = '%'
      · subst hc
        have hsp : splitOnC '%' t =
            t.takeWhile (fun c => !(c = '%' : Bool)) ::
              (match t.dropWhile (fun c => !(c = '%' : Bool)) with
               | [] => []
               | _ :: t2 => splitOnC '%' t2) := splitOnC_head_tail '%' t
        have hscan : scanOutside ('%' :: t) =
            (defaultMatcher ::
              (scanOutside ((t.dropWhile (fun c => !(c = '%' : Bool))).drop 1)).1,
             String.mk (t.takeWhile (fun c => !(c = '%' : Bool))) ::
              (scanOutside ((t.dropWhile (fun c => !(c = '%' : Bool))).drop 1)).2) := by
          show scanInside [] t = _
          rw [scanInside_spec t []]
          simp
        have hstep : splitOnC '%' ('%' :: t) = [] :: splitOnC '%' t := by
          simp [splitOnC]
        cases hdw : t.dropWhile (fun c => !(c = '%' : Bool)) with
        | nil =>
          rw [hdw] at hscan
          have hsp2 : splitOnC '%' ('%' :: t) =
              [] :: t.takeWhile (fun c => !(c = '%' : Bool)) :: [] := by
            rw [hstep, hsp, hdw]
          rw [hsp2, hscan]
          constructor
          · simp [lowerBorders, lowerBordersOdd, scanOutside]
          · simp [oddEntries, evenEntries, scanOutside]
        | cons d t2 =>
          rw [hdw] at hscan
          have ht2 : t2.length ≤ n := by
            have h1 := dropWhile_length_le (fun c => !(c = '%' : Bool)) t
            rw [hdw] at h1
            simp only [List.length_cons] at h1
            omega
          obtain ⟨ih1, ih2⟩ := ih t2 ht2
          have hsp2 : splitOnC '%' ('%' :: t) =
              [] :: t.takeWhile (fun c => !(c = '%' : Bool)) :: splitOnC '%' t2 := by
            rw [hstep, hsp, hdw]
          rw [hsp2, hscan]
          constructor
          · simp only [lowerBorders, lowerBordersOdd, List.map_nil, List.nil_append,
              List.drop_succ_cons, List.drop_zero]
            rw [ih1]
          · simp only [oddEntries, evenEntries, List.map_cons, List.drop_succ_cons,
              List.drop_zero]
            rw [ih2]
      · have hne := splitOnC_ne_nil '%' t
        obtain ⟨A, M, hAM⟩ : ∃ A M, splitOnC '%' t = A :: M := by
          cases hq : splitOnC '%' t with
          | nil => exact absurd hq hne
          | cons A M => exact ⟨A, M, rfl⟩
        have hsp2 : splitOnC '%' (c :: t) = (c :: A) :: M := by
          simp only [splitOnC, if_neg hc]
          rw [hAM]
        have hscan : scanOutside (c :: t) =
            (⟨Atom.chr c, Quant.one, false⟩ :: (scanOutside t).1, (scanOutside t).2) := by
          simp [scanOutside, hc]
        obtain ⟨ih1, ih2⟩ := ih t ht
        rw [hsp2, hscan]
        constructor
        · have hlb : lowerBorders defaultMatcher ((c :: A) :: M) =
              ⟨Atom.chr c, Quant.one, false⟩ :: lowerBorders defaultMatcher (A :: M) := by
            simp [lowerBorders]
          rw [hlb, ← hAM, ih1]
        · have hoe : oddEntries ((c :: A) :: M) = oddEntries (A :: M) := by
            simp [oddEntries]
          rw [hoe, ← hAM, ih2]

/-- C7 counterexample: for the repository's own test pattern written with
backslash separators (`test_parse_from_placeholder`, fourth case),
placeholder-mode extraction succeeds — the placeholder pattern is
normalized like a path — while regex-mode extraction with the regex
obtained by escaping the pattern's literal characters as written and
replacing each placeholder by the default capture group fails: the two
are not identical on this input. -/
theorem C7_counterexample :
    parse_from_placeholder "y:\\code\\sovabids\\_data\\lemon\\sub-010002.vhdr"
      "%ignore%\\sub-%entities.subject%.vhdr" '%' defaultMatcher
      = some [("ignore", Val.str "y:/code/sovabids/_data/lemon"),
              ("entities", Val.dict [("subject", Val.str "010002")])] ∧
    parse_from_regexAST "y:\\code\\sovabids\\_data\\lemon\\sub-010002.vhdr"
      (scanPlaceholder "%ignore%\\sub-%entities.subject%.vhdr".data).1
      (scanPlaceholder "%ignore%\\sub-%entities.subject%.vhdr".data).2
      = none := by
  refine ⟨by rfl, by rfl⟩

/-- C7 (amended): placeholder-mode extraction with the default matcher
equals regex-mode extraction with the regex obtained by escaping the
literal characters of the normalized (forward-slash) pattern and
replacing each `%name%` placeholder with a default-matcher capture
group, the field names supplied in left-to-right placeholder order —
for every path and every pattern. -/
theorem C7_placeholder_regex_equiv (path pattern : String) :
    parse_from_placeholder path pattern '%' defaultMatcher =
      parse_from_regexAST path
        (scanPlaceholder (normalizePath pattern).data).1
        (scanPlaceholder (normalizePath pattern).data).2 := by
  unfold parse_from_placeholder scanPlaceholder
  simp only []
  obtain ⟨h1, h2⟩ :=
    scan_eq_split_aux (normalizePath pattern).data.length
      (normalizePath pattern).data (le_refl _)
  rw [h1, h2]

/-! ## apply_rules_to_single_file (rules.py lines 116-297)

The external collaborators — the mne-bids writer, the dataset-description
updater (`sovabids/bids.py`, not among the sources), the sidecar /
channel-table overlays (file I/O through mne-bids paths), the `exec`
extension hook, and the directory scanner `_get_files` of
`sovabids/files.py` — are abstracted as an oracle record.  The file system
under the output root is the set (list, up to membership) of file paths
present.  The in-memory raw recording and its mutations (line-frequency,
channel renames and types, cropping) are out of scope per spec 1 and are
not modelled. -/

/-- Outcomes and effects of the external collaborators for one run. -/
structure World where
  /-- `BIDSPath(**entities, root=...).fpath`: target resolution from the
  entities section and the output root. -/
  resolve : Dict → String → String
  /-- Files `write_raw_bids` creates under the output root. -/
  writerFiles : List String
  /-- `update_dataset_description(..., do_not_create=write)`: given the
  flag, either raises or creates the listed files. -/
  udd : Bool → Except Unit (List String)
  /-- Sidecar overlay (read, update, rewrite): raises, or yields the
  flattened sidecar text and any files it creates. -/
  sidecarStep : Except Unit (String × List String)
  /-- Channel-table overlay: raises, or yields the table as column/value
  pairs. -/
  channelsStep : Except Unit (List (String × String))
  /-- Reading `dataset_description.json` for the preview snapshot:
  raises, or yields the flattened text. -/
  dasetRead : Except Unit String
  /-- Whether `exec` of a given hook command raises. -/
  execRaises : String → Bool
  /-- The traceback text `format_exc()` yields for a failed command. -/
  traceback : String → String
  /-- `_get_files`: recursive directory scan. -/
  listFiles : String → List String
  /-- Modelled from the spec: `SUPPORTED_EXTENSIONS` of the missing
  module `sovabids/settings.py`. -/
  supportedExtensions : List String

/-- Python exceptions the pipeline can raise. -/
inductive SErr where
  | extractionError : SErr
  | entitiesAssert : SErr
  | entitiesType : SErr
  | nonBidsType : SErr
  | hookTypeError : SErr
  | ddError : SErr
  | dasetReadError : SErr
  | nameError : SErr
  | valueError : SErr
deriving Repr, DecidableEq

/-- The error text printed for a failed hook command (rules.py line 189),
command text and traceback included. -/
def hookErrString (cmd tb : String) : String :=
  "There was an error with the follwing command:\n" ++ cmd ++
    "\ngiving the following traceback:\n" ++ tb

/-- The command list of a `non-bids` section: a single string is wrapped
into a one-element list (rules.py lines 182-183); a value of any other
type leaves the loop unentered (`none`). -/
def hookCommands (nb : Dict) : Option (List Val) :=
  match lookupD nb "code_execution" with
  | some (Val.str c) => some [Val.str c]
  | some (Val.vlist l) => some l
  | _ => none

/-- Run the hook commands in order (rules.py lines 185-192): a command
that raises is caught and logged with its text and traceback, and
execution continues.  A non-string command raises inside the handler
while the log message is being concatenated, and that error propagates. -/
def runHookList (w : World) : List Val → Except SErr (List String)
  | [] => Except.ok []
  | Val.str c :: rest =>
    match runHookList w rest with
    | Except.error e => Except.error e
    | Except.ok l =>
      Except.ok ((if w.execRaises c then [hookErrString c (w.traceback c)] else []) ++ l)
  | _ :: _ => Except.error SErr.hookTypeError

/-- The in-place mutation of rules.py line 183: a string
`non-bids.code_execution` becomes the one-element list in the merged
document (and hence in the returned mapping record). -/
def normalizeCodeExec (m : Dict) : Dict :=
  match lookupD m "non-bids" with
  | some (Val.dict nb) =>
    match lookupD nb "code_execution" with
    | some (Val.str c) =>
      storeD m "non-bids" (Val.dict (storeD nb "code_execution" (Val.vlist [Val.str c])))
    | _ => m
  | _ => m

/-- `os.path.join` (posixpath, two arguments): an absolute second
component replaces the first; otherwise a separator is inserted unless
the first component is empty or already ends in one. -/
def joinPath (a b : String) : String :=
  if b.data.head? = some '/' then b
  else if a = "" || a.data.reverse.head? = some '/' then a ++ b
  else a ++ "/" ++ b

/-- Add newly created files to the file set. -/
def addFiles (fs new : List String) : List String :=
  fs ++ new.filter (fun x => !(fs.contains x))

/-- The preview rollback (rules.py lines 289-293): delete every file
present now that was not in the pre-write snapshot. -/
def previewCleanup (cur orig : List String) : List String :=
  let newFiles := cur.filter (fun x => !(orig.contains x))
  cur.filter (fun x => !(newFiles.contains x))

/-- The preview dictionary (rules.py lines 278-285). -/
def mkPreviewDoc (m2 : Dict) (dasetjson sidecarjson : String) (channelsVal : Val) : Dict :=
  [("IO", (lookupD m2 "IO").getD (Val.dict [])),
   ("entities", (lookupD m2 "entities").getD (Val.dict [])),
   ("dataset_description", Val.str dasetjson),
   ("sidecar", Val.str sidecarjson),
   ("channels", channelsVal)]

/-- Result of one per-file run: outcome (mapping record and optional
preview document, or the propagated exception), the file set under the
output root, and the printed hook-failure log. -/
structure RunOut where
  result : Except SErr (Dict × Option Dict)
  fs : List String
  log : List String

/-- The sidecar overlay (rules.py lines 232-246): on success the
flattened sidecar text and the file set with any files it created; a
failure is caught and yields the empty text, leaving the file set. -/
def sidecarOut (w : World) (fs2 : List String) : String × List String :=
  match w.sidecarStep with
  | Except.ok sn => (sn.1, addFiles fs2 sn.2)
  | Except.error _ => ("", fs2)

/-- The channel-table overlay (rules.py lines 247-263): on success the
table as a column dictionary; a failure is caught and yields the empty
string. -/
def channelsOut (w : World) : Val :=
  match w.channelsStep with
  | Except.ok tbl => Val.dict (tbl.map (fun kv => (kv.1, Val.str kv.2)))
  | Except.error _ => Val.str ""

/-- The dataset-description snapshot read (rules.py lines 264-277): empty
when the file does not exist; an exception while reading it is NOT
caught and propagates. -/
def dasetOut (w : World) (root : String) (fs3 : List String) : Except SErr String :=
  if fs3.contains (joinPath root "dataset_description.json") then
    match w.dasetRead with
    | Except.ok s => Except.ok s
    | Except.error _ => Except.error SErr.dasetReadError
  else Except.ok ""

/-- The `IO` assignment (rules.py lines 224-226): target first, then
source. -/
def ioAugment (w : World) (file : String) (m ents : Dict) (root : String) : Dict :=
  storeD m "IO"
    (Val.dict [("target", Val.str (w.resolve ents root)), ("source", Val.str file)])

/-- The post-write block, preview assembly, rollback and
`dataset_description` deletion (rules.py lines 231-297) for the
write/preview modes; `orig` is the pre-write snapshot. -/
def postBlock (w : World) (m2 : Dict) (root : String) (write preview : Bool)
    (orig fs2 : List String) : Except SErr (Dict × Option Dict) × List String :=
  match dasetOut w root (sidecarOut w fs2).2 with
  | Except.error e => (Except.error e, (sidecarOut w fs2).2)
  | Except.ok dasetjson =>
    (Except.ok (eraseD m2 "dataset_description",
       if preview then
         some (mkPreviewDoc m2 dasetjson (sidecarOut w fs2).1 (channelsOut w))
       else none),
     if !write && preview then previewCleanup (sidecarOut w fs2).2 orig
     else (sidecarOut w fs2).2)

/-- The pipeline stages after the extension hooks, for a file whose
merged document has a `non-bids` section (rules.py lines 195-297):
target resolution, mode-dispatched write, dataset-description update,
`IO` assignment, post-write overlays (sidecar and channel-table failures
are caught; a dataset-description read failure propagates), preview
assembly, snapshot-diff rollback in preview mode, and deletion of
`dataset_description` from the returned record. -/
def afterHooks (w : World) (file : String) (m : Dict) (ents : Dict) (root : String)
    (write preview : Bool) (fs : List String) :
    Except SErr (Dict × Option Dict) × List String :=
  match w.udd write with
  | Except.error _ =>
    (Except.error SErr.ddError,
     if write || preview then addFiles fs w.writerFiles else fs)
  | Except.ok ddf =>
    if write || preview then
      postBlock w (ioAugment w file m ents root) root write preview fs
        (addFiles (addFiles fs w.writerFiles) ddf)
    else
      (Except.ok (eraseD (ioAugment w file m ents root) "dataset_description", none),
       addFiles fs ddf)

/-- `apply_rules_to_single_file` (rules.py lines 116-297): merge rules
with the path extraction, assert an `entities` section, run the extension
hooks, and — when a `non-bids` section is present — resolve the target,
dispatch on the mode, apply overlays, and clean up preview artifacts.
Without a `non-bids` section no `IO` section is ever written and, in
preview mode, assembling the preview dictionary raises `NameError`
because the overlay snapshot variables were never bound. -/
def applyValidated (w : World) (file : String) (merged : Dict) (entv : Val)
    (root : String) (write preview : Bool) (fs : List String) : RunOut :=
  match lookupD merged "non-bids" with
  | none =>
    if preview then ⟨Except.error SErr.nameError, fs, []⟩
    else ⟨Except.ok (eraseD merged "dataset_description", none), fs, []⟩
  | some (Val.dict nb) =>
    match (match hookCommands nb with
           | some cmds => runHookList w cmds
           | none => Except.ok []) with
    | Except.error e => ⟨Except.error e, fs, []⟩
    | Except.ok log =>
      match entv with
      | Val.dict ents =>
        ⟨(afterHooks w file (normalizeCodeExec merged) ents root write preview fs).1,
         (afterHooks w file (normalizeCodeExec merged) ents root write preview fs).2,
         log⟩
      | _ => ⟨Except.error SErr.entitiesType, fs, log⟩
  | some _ => ⟨Except.error SErr.nonBidsType, fs, []⟩

/-- The stages of `apply_rules_to_single_file` up to validation:
extraction merge (line 155) and the `entities` assertion (line 158). -/
def applySingle (w : World) (file : String) (rules : Dict) (root : String)
    (write preview : Bool) (fs : List String) : RunOut :=
  match get_info_from_path file rules with
  | none => ⟨Except.error SErr.extractionError, fs, []⟩
  | some merged =>
    match lookupD merged "entities" with
    | none => ⟨Except.error SErr.entitiesAssert, fs, []⟩
    | some entv => applyValidated w file merged entv root write preview fs

/-! ## apply_rules (rules.py lines 298-353) and get_files (lines 56-95) -/

/-- The path component after the last forward slash. -/
def lastComponent (s : String) : String :=
  String.mk ((s.data.reverse.takeWhile (fun c => !(c = '/' : Bool))).reverse)

/-- `os.path.splitext(x)[1]`: the extension of the path's last component,
empty when there is no dot after the leading dots. -/
def splitextExt (s : String) : String :=
  let base := (lastComponent s).data
  let lead := (base.takeWhile (fun c => (c = '.' : Bool))).length
  let rest := base.drop lead
  if rest.any (fun c => (c = '.' : Bool)) then
    String.mk ('.' :: (rest.reverse.takeWhile (fun c => !(c = '.' : Bool))).reverse)
  else ""

/-- `get_files` (rules.py lines 56-95): scan the source directory and
keep the files whose extension is accepted; the accepted extensions come
from `non-bids.eeg_extension` (string or list of strings), defaulting to
the supported-extension list on any lookup failure; a missing leading dot
is prepended. -/
def get_files_model (w : World) (sourcePath : String) (rules : Dict) : List String :=
  let extensions : List String :=
    match lookupD (nonBidsOf rules) "eeg_extension" with
    | some (Val.str s) => [s]
    | some (Val.vlist l) =>
        l.filterMap (fun v => match v with | Val.str s => some s | _ => none)
    | _ => w.supportedExtensions
  let extensions := extensions.map (fun x => if x.startsWith "." then x else "." ++ x)
  (w.listFiles sourcePath).filter (fun f => extensions.contains (splitextExt f))

/-- `os.path.split` (posixpath): the tail is everything after the last
forward slash, the head everything up to and including it; a head that is
neither empty nor all slashes loses its trailing slashes. -/
def pathSplit (p : String) : String × String :=
  let cs := p.data
  let tail := (cs.reverse.takeWhile (fun c => !(c = '/' : Bool))).reverse
  let head := cs.take (cs.length - tail.length)
  let head :=
    if head.isEmpty || head.all (fun c => (c = '/' : Bool)) then head
    else (head.reverse.dropWhile (fun c => (c = '/' : Bool))).reverse
  (String.mk head, String.mk tail)

theorem pathSplit_bare : pathSplit "custom.yml" = ("", "custom.yml") := rfl

theorem pathSplit_rooted : pathSplit "/custom.yml" = ("/", "custom.yml") := rfl

theorem pathSplit_doubled_sep : pathSplit "a//b.yml" = ("a", "b.yml") := rfl

theorem pathSplit_nested : pathSplit "out/dir/custom.yml" = ("out/dir", "custom.yml") := rfl

theorem joinPath_rooted_head : joinPath "/" "custom.yml" = "/custom.yml" := rfl

/-- The batch source argument: a directory path, or an explicit file
list. -/
inductive Source where
  | path : String → Source
  | files : List String → Source

/-- The YAML value `IO.source` receives in the General section: the
source argument as given. -/
def sourceVal : Source → Val
  | Source.path s => Val.str s
  | Source.files l => Val.vlist (l.map Val.str)

/-- Result of a batch run: the mapping-file document or the propagated
exception, the final file set, what was persisted (path and document),
and the directories created by `os.makedirs`. -/
structure BatchOut where
  result : Except SErr Dict
  fs : List String
  written : Option (String × Dict)
  dirsMade : List String

/-- The per-file loop of `apply_rules` (rules.py lines 331-334): each
file is processed with `write=False, preview=False`; an exception from
any file propagates immediately, aborting the batch. -/
def batchLoop (w : World) (rules : Dict) (root : String) :
    List String → List String → Except SErr (List Dict) × List String
  | [], fs => (Except.ok [], fs)
  | f :: rest, fs =>
    let out := applySingle w f rules root false false fs
    match out.result with
    | Except.error e => (Except.error e, out.fs)
    | Except.ok mp =>
      match batchLoop w rules root rest out.fs with
      | (Except.error e, fs2) => (Except.error e, fs2)
      | (Except.ok ms, fs2) => (Except.ok (mp.1 :: ms), fs2)

/-- `apply_rules` (rules.py lines 298-353): resolve the file list from
the source argument, run the per-file loop in dry mode, split the mapping
path with its defaults (`mappings.yml`; `<bids_path>/code/sovabids`),
create the output folder, augment the rules with batch-level
`IO.source`/`IO.target`, and persist
`General` plus the `Individual` records in input order. -/
def apply_rules (w : World) (src : Source) (root : String) (rules : Dict)
    (mappingPath : String) (fs : List String) : BatchOut :=
  let fps? : Except SErr (List String) :=
    match src with
    | Source.path s => Except.ok (get_files_model w s rules)
    | Source.files [] => Except.error SErr.valueError
    | Source.files l => Except.ok l
  match fps? with
  | Except.error e => ⟨Except.error e, fs, none, []⟩
  | Except.ok fps =>
    match batchLoop w rules root fps fs with
    | (Except.error e, fs2) => ⟨Except.error e, fs2, none, []⟩
    | (Except.ok maps, fs2) =>
      let sp := pathSplit mappingPath
      let outputname := if sp.2 = "" then "mappings.yml" else sp.2
      let outputfolder :=
        if sp.1 = "" then joinPath (joinPath root "code") "sovabids" else sp.1
      let fullPath := joinPath outputfolder outputname
      let general := storeD rules "IO"
        (Val.dict [("source", sourceVal src), ("target", Val.str root)])
      let md : Dict :=
        [("General", Val.dict general), ("Individual", Val.vlist (maps.map Val.dict))]
      ⟨Except.ok md, fs2, some (fullPath, md), [outputfolder]⟩

/-! ### File-set lemmas -/

theorem contains_iff_mem (l : List String) (x : String) :
    l.contains x = true ↔ x ∈ l := by
  induction l with
  | nil => simp
  | cons y t ih => simp [List.contains_cons, ih]

theorem mem_addFiles (fs new : List String) (x : String) :
    x ∈ addFiles fs new ↔ x ∈ fs ∨ x ∈ new := by
  simp only [addFiles, List.mem_append, List.mem_filter]
  constructor
  · rintro (h | ⟨h, _⟩)
    · exact Or.inl h
    · exact Or.inr h
  · intro h
    by_cases hfs : x ∈ fs
    · exact Or.inl hfs
    · rcases h with h | h
      · exact absurd h hfs
      · refine Or.inr ⟨h, ?_⟩
        simp only [Bool.not_eq_true']
        rw [Bool.eq_false_iff]
        intro hc
        exact hfs ((contains_iff_mem fs x).mp hc)

theorem mem_previewCleanup (cur orig : List String) (x : String) :
    x ∈ previewCleanup cur orig ↔ x ∈ cur ∧ x ∈ orig := by
  simp only [previewCleanup, List.mem_filter, Bool.not_eq_true']
  constructor
  · rintro ⟨hc, hn⟩
    refine ⟨hc, ?_⟩
    by_contra horig
    have hx : x ∈ cur.filter (fun y => !(orig.contains y)) := by
      simp only [List.mem_filter, Bool.not_eq_true']
      refine ⟨hc, ?_⟩
      rw [Bool.eq_false_iff]
      intro hco
      exact horig ((contains_iff_mem orig x).mp hco)
    rw [Bool.eq_false_iff] at hn
    exact hn ((contains_iff_mem _ x).mpr hx)
  · rintro ⟨hc, ho⟩
    refine ⟨hc, ?_⟩
    rw [Bool.eq_false_iff]
    intro hn
    have hx := (contains_iff_mem _ x).mp hn
    simp only [List.mem_filter, Bool.not_eq_true'] at hx
    rw [Bool.eq_false_iff] at hx
    exact hx.2 ((contains_iff_mem orig x).mpr ho)

/-- Two file sets are equal as sets. -/
def sameSetB (a b : List String) : Bool :=
  a.all (fun x => b.contains x) && b.all (fun x => a.contains x)

theorem sameSetB_eq_true_iff (a b : List String) :
    sameSetB a b = true ↔ ∀ x, x ∈ a ↔ x ∈ b := by
  simp only [sameSetB, Bool.and_eq_true, List.all_eq_true]
  constructor
  · rintro ⟨h1, h2⟩ x
    constructor
    · intro hx; exact (contains_iff_mem b x).mp (h1 x hx)
    · intro hx; exact (contains_iff_mem a x).mp (h2 x hx)
  · intro h
    constructor
    · intro x hx; exact (contains_iff_mem b x).mpr ((h x).mp hx)
    · intro x hx; exact (contains_iff_mem a x).mpr ((h x).mpr hx)

/-! ### afterHooks lemmas -/

/-- Whenever the post-hook pipeline returns normally, the returned
mapping record is exactly the input document with the `IO` section set
(target first, then source) and `dataset_description` deleted. -/
theorem afterHooks_ok_mapping (w : World) (file : String) (m ents : Dict)
    (root : String) (write preview : Bool) (fs : List String) (m2 : Dict)
    (p : Option Dict)
    (h : (afterHooks w file m ents root write preview fs).1 = Except.ok (m2, p)) :
    m2 = eraseD (storeD m "IO"
      (Val.dict [("target", Val.str (w.resolve ents root)),
                 ("source", Val.str file)])) "dataset_description" := by
  unfold afterHooks at h
  split at h
  · simp at h
  · split at h
    · unfold postBlock at h
      split at h
      · simp at h
      · simp only [Except.ok.injEq, Prod.mk.injEq] at h
        exact h.1.symm
    · simp only [Except.ok.injEq, Prod.mk.injEq] at h
      exact h.1.symm

/-- In preview mode, a normal return leaves the file set equal (as a
set) to the pre-run file set: the snapshot-diff rollback removes every
generated artifact. -/
theorem afterHooks_preview_fs (w : World) (file : String) (m ents : Dict)
    (root : String) (fs : List String) (m2 : Dict) (p : Option Dict)
    (h : (afterHooks w file m ents root false true fs).1 = Except.ok (m2, p)) :
    ∀ x, x ∈ (afterHooks w file m ents root false true fs).2 ↔ x ∈ fs := by
  intro x
  unfold afterHooks at h ⊢
  cases hudd : w.udd false with
  | error e =>
    rw [hudd] at h
    simp at h
  | ok ddf =>
    rw [hudd] at h
    have h2 : (postBlock w (ioAugment w file m ents root) root false true fs
        (addFiles (addFiles fs w.writerFiles) ddf)).1 = Except.ok (m2, p) := h
    show x ∈ (postBlock w (ioAugment w file m ents root) root false true fs
        (addFiles (addFiles fs w.writerFiles) ddf)).2 ↔ x ∈ fs
    unfold postBlock at h2 ⊢
    cases hds : dasetOut w root
        (sidecarOut w (addFiles (addFiles fs w.writerFiles) ddf)).2 with
    | error e2 =>
      rw [hds] at h2
      simp at h2
    | ok dj =>
      dsimp only
      rw [if_pos (show (!false && true) = true from rfl), mem_previewCleanup]
      constructor
      · exact fun hx => hx.2
      · intro hfs
        refine ⟨?_, hfs⟩
        have h1 : x ∈ addFiles (addFiles fs w.writerFiles) ddf :=
          (mem_addFiles _ _ _).mpr (Or.inl ((mem_addFiles _ _ _).mpr (Or.inl hfs)))
        cases hsc : w.sidecarStep with
        | ok sn =>
          unfold sidecarOut
          rw [hsc]
          exact (mem_addFiles _ _ _).mpr (Or.inl h1)
        | error e3 =>
          unfold sidecarOut
          rw [hsc]
          exact h1

/-- The dry-mode result does not depend on the file set. -/
theorem afterHooks_dry_result (w : World) (file : String) (m ents : Dict)
    (root : String) (fs fs2 : List String) :
    (afterHooks w file m ents root false false fs).1
      = (afterHooks w file m ents root false false fs2).1 := by
  unfold afterHooks
  cases w.udd false <;> rfl

theorem applyValidated_dry_result (w : World) (file : String) (merged : Dict)
    (entv : Val) (root : String) (fs fs2 : List String) :
    (applyValidated w file merged entv root false false fs).result
      = (applyValidated w file merged entv root false false fs2).result := by
  unfold applyValidated
  cases lookupD merged "non-bids" with
  | none => rfl
  | some v =>
    try dsimp only
    cases v with
    | str s => rfl
    | vlist l => rfl
    | dict nb =>
      try dsimp only
      cases (match hookCommands nb with
             | some cmds => runHookList w cmds
             | none => Except.ok []) with
      | error e => rfl
      | ok log =>
        try dsimp only
        cases entv with
        | str s => rfl
        | vlist l => rfl
        | dict ents =>
          try dsimp only
          exact afterHooks_dry_result w file (normalizeCodeExec merged) ents root fs fs2

/-- The dry-mode per-file result does not depend on the file set. -/
theorem applySingle_dry_result (w : World) (file : String) (rules : Dict)
    (root : String) (fs fs2 : List String) :
    (applySingle w file rules root false false fs).result
      = (applySingle w file rules root false false fs2).result := by
  unfold applySingle
  cases get_info_from_path file rules with
  | none => rfl
  | some merged =>
    try dsimp only
    cases lookupD merged "entities" with
    | none => rfl
    | some entv =>
      try dsimp only
      exact applyValidated_dry_result w file merged entv root fs fs2

/-- Case analysis of a normally-returning per-file run: either the merged
document has no `non-bids` section (then the mode was not preview and the
record is the merged document minus `dataset_description`), or it has one
and the record additionally carries the `IO` section. -/
theorem applySingle_ok_cases (w : World) (file : String) (rules : Dict)
    (root : String) (write preview : Bool) (fs : List String) (m : Dict)
    (p : Option Dict)
    (h : (applySingle w file rules root write preview fs).result = Except.ok (m, p)) :
    ∃ merged, get_info_from_path file rules = some merged ∧
      ((lookupD merged "non-bids" = none ∧ preview = false ∧
          m = eraseD merged "dataset_description") ∨
       (∃ nb ents, lookupD merged "non-bids" = some (Val.dict nb) ∧
          lookupD merged "entities" = some (Val.dict ents) ∧
          m = eraseD (storeD (normalizeCodeExec merged) "IO"
            (Val.dict [("target", Val.str (w.resolve ents root)),
                       ("source", Val.str file)])) "dataset_description")) := by
  unfold applySingle at h
  cases hgi : get_info_from_path file rules with
  | none => rw [hgi] at h; simp at h
  | some merged =>
    rw [hgi] at h
    refine ⟨merged, rfl, ?_⟩
    try dsimp only at h
    cases hent : lookupD merged "entities" with
    | none => rw [hent] at h; simp at h
    | some entv =>
      rw [hent] at h
      try dsimp only at h
      unfold applyValidated at h
      cases hnb : lookupD merged "non-bids" with
      | none =>
        rw [hnb] at h
        try dsimp only at h
        by_cases hp : preview = true
        · rw [if_pos hp] at h
          simp at h
        · rw [if_neg hp] at h
          have h2 : Except.ok (eraseD merged "dataset_description", (none : Option Dict))
              = Except.ok (m, p) := h
          have h3 := Except.ok.inj h2
          refine Or.inl ⟨rfl, by simpa using hp, ?_⟩
          exact (congrArg Prod.fst h3).symm
      | some v =>
        rw [hnb] at h
        try dsimp only at h
        cases v with
        | str s => simp at h
        | vlist l => simp at h
        | dict nb =>
          try dsimp only at h
          cases hhk : (match hookCommands nb with
                       | some cmds => runHookList w cmds
                       | none => Except.ok []) with
          | error e => rw [hhk] at h; simp at h
          | ok log =>
            rw [hhk] at h
            try dsimp only at h
            cases entv with
            | str s => simp at h
            | vlist l => simp at h
            | dict ents =>
              have h2 : (afterHooks w file (normalizeCodeExec merged) ents root
                  write preview fs).1 = Except.ok (m, p) := h
              have h3 := afterHooks_ok_mapping w file (normalizeCodeExec merged)
                ents root write preview fs m p h2
              exact Or.inr ⟨nb, ents, rfl, rfl, h3⟩

/-- An everything-succeeds collaborator oracle for concrete runs. -/
def wTest : World where
  resolve := fun _ root => joinPath root "sub-01/eeg/sub-01_eeg.vhdr"
  writerFiles := ["out/sub-01/eeg/sub-01_eeg.vhdr", "out/sub-01/eeg/sub-01_eeg.json"]
  udd := fun _ => Except.ok ["out/dataset_description.json"]
  sidecarStep := Except.ok ("sidecar-text", [])
  channelsStep := Except.ok [("name", "Cz"), ("type", "EEG")]
  dasetRead := Except.ok "daset-text"
  execRaises := fun _ => false
  traceback := fun _ => "tb"
  listFiles := fun _ => []
  supportedExtensions := [".vhdr"]

/-! ## Claim C10 -/

/-- C10: the mapping record returned by a normally-completing
`apply_rules_to_single_file` run never contains a `dataset_description`
key — it is deleted just before returning (rules.py lines 294-297) —
whatever mode the run used and whatever the rule document supplied. -/
theorem C10_no_dataset_description (w : World) (file : String) (rules : Dict)
    (root : String) (write preview : Bool) (fs : List String) (m : Dict)
    (p : Option Dict)
    (h : (applySingle w file rules root write preview fs).result = Except.ok (m, p)) :
    lookupD m "dataset_description" = none := by
  obtain ⟨merged, _, hcase⟩ :=
    applySingle_ok_cases w file rules root write preview fs m p h
  cases hcase with
  | inl hc =>
    rw [hc.2.2]
    exact lookupD_eraseD_self _ _
  | inr hc =>
    obtain ⟨nb, ents, _, _, hm⟩ := hc
    rw [hm]
    exact lookupD_eraseD_self _ _

/-- A rule document that supplies a `dataset_description` section. -/
def c10rules : Dict :=
  [("entities", Val.dict [("subject", Val.str "01")]),
   ("dataset_description", Val.dict [("Name", Val.str "X")]),
   ("non-bids", Val.dict [])]

/-- C10 witness: a concrete dry run whose rule document supplies a
`dataset_description` section; the record comes back without it. -/
theorem C10_no_dataset_description_witness :
    lookupD
      [("entities", Val.dict [("subject", Val.str "01")]),
       ("non-bids", Val.dict []),
       ("IO", Val.dict [("target", Val.str "out/sub-01/eeg/sub-01_eeg.vhdr"),
                        ("source", Val.str "a.vhdr")])]
      "dataset_description" = none :=
  C10_no_dataset_description wTest "a.vhdr" c10rules "out" false false [] _ none (by rfl)

/-! ## Claim C4 -/

/-- A rule document without a `non-bids` section. -/
def c4rules : Dict := [("entities", Val.dict [("subject", Val.str "01")])]

/-- C4 counterexample: with no `non-bids` section in the merged document,
the whole `IO`-assignment block (rules.py lines 179-226) is skipped: the
dry run returns normally, but the mapping record carries no `IO` section
at all, against the claim's "in any mode, for every file". -/
theorem C4_counterexample :
    (applySingle wTest "data/f.vhdr" c4rules "out" false false []).result
      = Except.ok (c4rules, none) ∧
    lookupD c4rules "IO" = none := by
  refine ⟨by rfl, by rfl⟩

/-- C4 (amended): for every file whose merged rule document has a
`non-bids` section, the returned record is the fully merged rule
document — with a string `code_execution` normalized to a one-element
list and `dataset_description` removed — augmented with an `IO` section
holding `IO.target` (the path resolved from `entities` and the output
root) and `IO.source` (the input file path). -/
theorem C4_io_section (w : World) (file : String) (rules M : Dict)
    (root : String) (write preview : Bool) (fs : List String) (m : Dict)
    (p : Option Dict) (nb : Dict)
    (hM : get_info_from_path file rules = some M)
    (hnb : lookupD M "non-bids" = some (Val.dict nb))
    (h : (applySingle w file rules root write preview fs).result = Except.ok (m, p)) :
    ∃ ents : Dict, lookupD M "entities" = some (Val.dict ents) ∧
      m = eraseD (storeD (normalizeCodeExec M) "IO"
        (Val.dict [("target", Val.str (w.resolve ents root)),
                   ("source", Val.str file)])) "dataset_description" := by
  obtain ⟨merged, hgi, hcase⟩ :=
    applySingle_ok_cases w file rules root write preview fs m p h
  have hMm : merged = M := by
    rw [hM] at hgi
    exact (Option.some.inj hgi).symm
  subst hMm
  cases hcase with
  | inl hc => rw [hc.1] at hnb; exact Option.noConfusion hnb
  | inr hc =>
    obtain ⟨nb2, ents, _, hent, hm⟩ := hc
    exact ⟨ents, hent, hm⟩

/-- A rule document with entities and a (trivial) `non-bids` section. -/
def c4rulesNB : Dict :=
  [("entities", Val.dict [("subject", Val.str "01")]), ("non-bids", Val.dict [])]

/-- C4 witness: the amended theorem at a concrete dry run. -/
theorem C4_io_section_witness :
    ∃ ents : Dict, lookupD c4rulesNB "entities" = some (Val.dict ents) ∧
      [("entities", Val.dict [("subject", Val.str "01")]),
       ("non-bids", Val.dict []),
       ("IO", Val.dict [("target", Val.str "out/sub-01/eeg/sub-01_eeg.vhdr"),
                        ("source", Val.str "a.vhdr")])]
      = eraseD (storeD (normalizeCodeExec c4rulesNB) "IO"
          (Val.dict [("target", Val.str (wTest.resolve ents "out")),
                     ("source", Val.str "a.vhdr")])) "dataset_description" :=
  C4_io_section wTest "a.vhdr" c4rulesNB c4rulesNB "out" false false [] _ none []
    (by rfl) (by rfl) (by rfl)

/-! ## Claim C1 -/

/-- The oracle whose dataset-description application raises. -/
def c1world : World := { wTest with udd := fun _ => Except.error () }

/-- Entities plus a (trivial) `non-bids` section. -/
def c1rules : Dict :=
  [("entities", Val.dict [("subject", Val.str "01")]), ("non-bids", Val.dict [])]

/-- C1 counterexample: in preview mode, when the dataset-description
application (rules.py line 223) raises after `write_raw_bids` generated
artifacts, the exception propagates before the cleanup block (lines
289-293) runs: the files generated during the preview remain on disk,
and the final file set differs from the (empty) pre-run snapshot. -/
theorem C1_counterexample :
    (applySingle c1world "src/f.vhdr" c1rules "out" false true []).result
      = Except.error SErr.ddError ∧
    (applySingle c1world "src/f.vhdr" c1rules "out" false true []).fs
      = ["out/sub-01/eeg/sub-01_eeg.vhdr", "out/sub-01/eeg/sub-01_eeg.json"] ∧
    sameSetB (applySingle c1world "src/f.vhdr" c1rules "out" false true []).fs [] = false := by
  refine ⟨by rfl, by rfl, by rfl⟩

/-- C1 (amended): when a preview-mode run returns normally, the file set
under the output root equals (as a set) the pre-run file set: every file
generated during the preview is rolled back.  Sidecar and channel-table
overlay failures are caught internally, so the run still returns normally
and rollback still happens after them; only a dataset-description failure
(the counterexample) escapes before rollback. -/
theorem C1_preview_rollback (w : World) (file : String) (rules : Dict)
    (root : String) (fs : List String) (m : Dict) (p : Option Dict)
    (h : (applySingle w file rules root false true fs).result = Except.ok (m, p)) :
    sameSetB (applySingle w file rules root false true fs).fs fs = true := by
  rw [sameSetB_eq_true_iff]
  intro x
  unfold applySingle at h ⊢
  cases hgi : get_info_from_path file rules with
  | none => rw [hgi] at h; try simp at h
  | some merged =>
    rw [hgi] at h
    try dsimp only
    try dsimp only at h
    cases hent : lookupD merged "entities" with
    | none => rw [hent] at h; try simp at h
    | some entv =>
      rw [hent] at h
      try dsimp only
      try dsimp only at h
      unfold applyValidated at h ⊢
      cases hnb : lookupD merged "non-bids" with
      | none =>
        rw [hnb] at h
        try simp at h
      | some v =>
        rw [hnb] at h
        try dsimp only
        try dsimp only at h
        cases v with
        | str s => try simp at h
        | vlist l => try simp at h
        | dict nb =>
          try dsimp only
          try dsimp only at h
          cases hhk : (match hookCommands nb with
                       | some cmds => runHookList w cmds
                       | none => Except.ok []) with
          | error e => rw [hhk] at h; try simp at h
          | ok log =>
            rw [hhk] at h
            try dsimp only
            try dsimp only at h
            cases entv with
            | str s => simp at h
            | vlist l => simp at h
            | dict ents =>
              have h2 : (afterHooks w file (normalizeCodeExec merged) ents root
                  false true fs).1 = Except.ok (m, p) := h
              show x ∈ (afterHooks w file (normalizeCodeExec merged) ents root
                  false true fs).2 ↔ x ∈ fs
              exact afterHooks_preview_fs w file (normalizeCodeExec merged) ents
                root fs m p h2 x

/-- C1 witness: a successful concrete preview run starting from an empty
output tree ends with an empty output tree again. -/
theorem C1_preview_rollback_witness :
    sameSetB (applySingle wTest "src/f.vhdr" c1rules "out" false true []).fs [] = true :=
  C1_preview_rollback wTest "src/f.vhdr" c1rules "out" [] _ _ (by rfl)

/-! ## Claim C8 -/

/-- Whether a value is a string. -/
def isStrVal : Val → Bool
  | Val.str _ => true
  | _ => false

/-- The log the hook loop prints: one entry per failing command, in
command order, built from the command text and its traceback. -/
def hookLogOf (w : World) : List Val → List String
  | [] => []
  | Val.str c :: rest =>
    (if w.execRaises c then [hookErrString c (w.traceback c)] else []) ++ hookLogOf w rest
  | _ :: rest => hookLogOf w rest

/-- Every command in the `code_execution` entry is a string (the claim's
scope: a string or a list of strings). -/
def codeExecAllStrings (nb : Dict) : Bool :=
  match lookupD nb "code_execution" with
  | some (Val.vlist l) => l.all isStrVal
  | _ => true

theorem runHookList_ok (w : World) (l : List Val) (h : l.all isStrVal = true) :
    runHookList w l = Except.ok (hookLogOf w l) := by
  induction l with
  | nil => rfl
  | cons v rest ih =>
    simp only [List.all_cons, Bool.and_eq_true] at h
    cases v with
    | str c => simp only [runHookList, hookLogOf, ih h.2]
    | vlist l2 => simp [isStrVal] at h
    | dict d => simp [isStrVal] at h

/-- With string-only commands, the hook stage never raises and its log is
exactly the failing commands' messages in order. -/
theorem hookStage_ok (w : World) (nb : Dict) (hstr : codeExecAllStrings nb = true) :
    (match hookCommands nb with
     | some cmds => runHookList w cmds
     | none => Except.ok []) = Except.ok (hookLogOf w ((hookCommands nb).getD [])) := by
  unfold codeExecAllStrings at hstr
  unfold hookCommands
  cases hce : lookupD nb "code_execution" with
  | none => rfl
  | some v =>
    rw [hce] at hstr
    cases v with
    | str c => simp [runHookList, hookLogOf]
    | vlist l => simpa using runHookList_ok w l hstr
    | dict d => rfl

theorem afterHooks_execRaises_irrel (w : World) (f2 : String → Bool)
    (tb2 : String → String) (file : String) (m ents : Dict) (root : String)
    (write preview : Bool) (fs : List String) :
    afterHooks { w with execRaises := f2, traceback := tb2 } file m ents root
        write preview fs
      = afterHooks w file m ents root write preview fs := rfl

/-- C8: for a `non-bids.code_execution` entry that is a string or a list
of strings, hook outcomes never change the per-file result or its
file-system effects — the mapping record is still produced whenever it
would be with no failures — and the run's log holds exactly one message
per failing command, in command order, carrying the command text and its
traceback. -/
theorem C8_hooks_nonfatal (w : World) (f2 : String → Bool) (file : String)
    (rules M nb : Dict) (root : String) (write preview : Bool)
    (fs : List String)
    (hM : get_info_from_path file rules = some M)
    (hent : (lookupD M "entities").isSome = true)
    (hnb : lookupD M "non-bids" = some (Val.dict nb))
    (hstr : codeExecAllStrings nb = true) :
    ((applySingle { w with execRaises := f2 } file rules root write preview fs).result
        = (applySingle w file rules root write preview fs).result
      ∧ (applySingle { w with execRaises := f2 } file rules root write preview fs).fs
        = (applySingle w file rules root write preview fs).fs)
    ∧ (applySingle { w with execRaises := f2 } file rules root write preview fs).log
        = hookLogOf { w with execRaises := f2 } ((hookCommands nb).getD []) := by
  unfold applySingle
  rw [hM]
  try dsimp only
  cases hEnt : lookupD M "entities" with
  | none => rw [hEnt] at hent; simp at hent
  | some entv =>
    try dsimp only
    unfold applyValidated
    rw [hnb]
    try dsimp only
    rw [hookStage_ok { w with execRaises := f2 } nb hstr, hookStage_ok w nb hstr]
    try dsimp only
    cases entv with
    | str s => exact ⟨⟨rfl, rfl⟩, rfl⟩
    | vlist l => exact ⟨⟨rfl, rfl⟩, rfl⟩
    | dict ents =>
      refine ⟨⟨?_, ?_⟩, rfl⟩
      · show (afterHooks { w with execRaises := f2 } file (normalizeCodeExec M) ents
            root write preview fs).1 = _
        rw [show ({ w with execRaises := f2 } : World)
            = { w with execRaises := f2, traceback := w.traceback } from rfl]
        rw [afterHooks_execRaises_irrel]
      · show (afterHooks { w with execRaises := f2 } file (normalizeCodeExec M) ents
            root write preview fs).2 = _
        rw [show ({ w with execRaises := f2 } : World)
            = { w with execRaises := f2, traceback := w.traceback } from rfl]
        rw [afterHooks_execRaises_irrel]

/-! ## Claim C2 -/

/-- Whether a per-file outcome is a normal return. -/
def isOkR (r : Except SErr (Dict × Option Dict)) : Bool :=
  match r with
  | Except.ok _ => true
  | Except.error _ => false

/-- If any file of the batch fails its dry run, the loop propagates an
exception. -/
theorem batchLoop_fails (w : World) (rules : Dict) (root : String) :
    ∀ (fps fs : List String),
      (∃ f ∈ fps, isOkR (applySingle w f rules root false false []).result = false) →
      ∃ e, (batchLoop w rules root fps fs).1 = Except.error e := by
  intro fps
  induction fps with
  | nil =>
    intro fs hex
    obtain ⟨f, hf, _⟩ := hex
    simp at hf
  | cons f0 rest ih =>
    intro fs hex
    unfold batchLoop
    try dsimp only
    cases hr : (applySingle w f0 rules root false false fs).result with
    | error e =>
      try dsimp only
      exact ⟨e, rfl⟩
    | ok mp =>
      try dsimp only
      obtain ⟨f, hf, hfail⟩ := hex
      have hfrest : f ∈ rest := by
        rcases List.mem_cons.mp hf with h1 | h1
        · subst h1
          rw [applySingle_dry_result w f rules root [] fs, hr] at hfail
          simp [isOkR] at hfail
        · exact h1
      obtain ⟨e, he⟩ := ih (applySingle w f0 rules root false false fs).fs
        ⟨f, hfrest, hfail⟩
      cases hb : batchLoop w rules root rest (applySingle w f0 rules root false false fs).fs with
      | mk res fs2 =>
        rw [hb] at he
        have hres : res = Except.error e := he
        subst hres
        exact ⟨e, rfl⟩

/-- C2 (amended): a file whose processing raises — in particular one
whose merged document lacks `entities`, which trips the assertion — makes
the whole `apply_rules` batch raise: the exception propagates out of the
per-file loop, no mapping file is persisted, and no output directory is
created. -/
theorem C2_batch_aborts (w : World) (l : List String) (root : String)
    (rules : Dict) (mp : String) (fs : List String)
    (hfail : ∃ f ∈ l, isOkR (applySingle w f rules root false false []).result = false) :
    (∃ e, (apply_rules w (Source.files l) root rules mp fs).result = Except.error e) ∧
    (apply_rules w (Source.files l) root rules mp fs).written = none ∧
    (apply_rules w (Source.files l) root rules mp fs).dirsMade = [] := by
  unfold apply_rules
  cases l with
  | nil =>
    obtain ⟨f, hf, _⟩ := hfail
    simp at hf
  | cons f0 rest =>
    try dsimp only
    obtain ⟨e, he⟩ := batchLoop_fails w rules root (f0 :: rest) fs hfail
    cases hb : batchLoop w rules root (f0 :: rest) fs with
    | mk res fs2 =>
      rw [hb] at he
      have hres : res = Except.error e := he
      subst hres
      exact ⟨⟨e, rfl⟩, rfl, rfl⟩

/-- Rules with a `non-bids` section but no `entities` anywhere: every
file's merged document fails the `entities` assertion. -/
def c2rules : Dict := [("non-bids", Val.dict [])]

/-- C2 counterexample: a batch containing a file whose merged document
lacks `entities` does NOT record the file as failed and persist a Mapping
File for the rest — the assertion error propagates out of `apply_rules`
(rules.py lines 330-334 have no handler), nothing is persisted, and no
Individual list is produced. -/
theorem C2_counterexample :
    (apply_rules wTest (Source.files ["data/f1.vhdr"]) "out" c2rules "" []).result
      = Except.error SErr.entitiesAssert ∧
    (apply_rules wTest (Source.files ["data/f1.vhdr"]) "out" c2rules "" []).written
      = none ∧
    (apply_rules wTest (Source.files ["data/f1.vhdr"]) "out" c2rules "" []).dirsMade
      = [] := by
  refine ⟨by rfl, by rfl, by rfl⟩

/-- C2 witness: the amended abort theorem at the concrete batch. -/
theorem C2_batch_aborts_witness :
    (∃ e, (apply_rules wTest (Source.files ["data/f1.vhdr"]) "out" c2rules "" []).result
      = Except.error e) ∧
    (apply_rules wTest (Source.files ["data/f1.vhdr"]) "out" c2rules "" []).written = none ∧
    (apply_rules wTest (Source.files ["data/f1.vhdr"]) "out" c2rules "" []).dirsMade = [] :=
  C2_batch_aborts wTest ["data/f1.vhdr"] "out" c2rules "" []
    ⟨"data/f1.vhdr", by simp, by rfl⟩

/-! ## Claim C9 -/

/-- The file list the batch resolves from the source argument
(rules.py lines 321-328): a directory path is scanned with `get_files`,
a list is taken as given. -/
def sourceFilepaths (w : World) (src : Source) (rules : Dict) : List String :=
  match src with
  | Source.path s => get_files_model w s rules
  | Source.files l => l

/-- The per-file mapping records of a batch: each file's dry run on an
empty file set, in input order; `none` as soon as any file raises. -/
def dryMaps (w : World) (rules : Dict) (root : String) : List String → Option (List Dict)
  | [] => some []
  | f :: rest =>
    match (applySingle w f rules root false false []).result with
    | Except.error _ => none
    | Except.ok mp =>
      match dryMaps w rules root rest with
      | some ms => some (mp.1 :: ms)
      | none => none

/-- A successful batch loop returns exactly the per-file dry-run records
in input order: the threaded file set does not influence any result. -/
theorem batchLoop_ok_dryMaps (w : World) (rules : Dict) (root : String) :
    ∀ (fps fs : List String) (maps : List Dict) (fs2 : List String),
      batchLoop w rules root fps fs = (Except.ok maps, fs2) →
      dryMaps w rules root fps = some maps := by
  intro fps
  induction fps with
  | nil =>
    intro fs maps fs2 h
    unfold batchLoop at h
    simp only [Prod.mk.injEq, Except.ok.injEq] at h
    obtain ⟨h1, _⟩ := h
    subst h1
    rfl
  | cons f0 rest ih =>
    intro fs maps fs2 h
    unfold batchLoop at h
    try dsimp only at h
    cases hr : (applySingle w f0 rules root false false fs).result with
    | error e =>
      rw [hr] at h
      try dsimp only at h
      simp at h
    | ok mp =>
      rw [hr] at h
      try dsimp only at h
      cases hb : batchLoop w rules root rest (applySingle w f0 rules root false false fs).fs with
      | mk res fs3 =>
        rw [hb] at h
        cases res with
        | error e =>
          try dsimp only at h
          simp at h
        | ok ms =>
          try dsimp only at h
          simp only [Prod.mk.injEq, Except.ok.injEq] at h
          obtain ⟨h1, _⟩ := h
          subst h1
          unfold dryMaps
          rw [applySingle_dry_result w f0 rules root [] fs, hr]
          try dsimp only
          rw [ih _ ms fs3 hb]

/-- C9 (amended): on a successful batch, `apply_rules` returns and
persists `(General = rules augmented with IO.source/IO.target,
Individual = the per-file records in input order)`; but the output
location is NOT `mapping_path` as given: the path is split into
`(folder, name)`, each empty component is replaced by its default
(`<bids_path>/code/sovabids`; `mappings.yml`), the document lands at
`folder/name`, and `folder` is the directory created. -/
theorem C9_mapping_file (w : World) (src : Source) (root : String)
    (rules : Dict) (mp : String) (fs : List String) (md : Dict)
    (h : (apply_rules w src root rules mp fs).result = Except.ok md) :
    ∃ ms, dryMaps w rules root (sourceFilepaths w src rules) = some ms ∧
      md = [("General", Val.dict (storeD rules "IO"
              (Val.dict [("source", sourceVal src), ("target", Val.str root)]))),
            ("Individual", Val.vlist (ms.map Val.dict))] ∧
      (apply_rules w src root rules mp fs).written
        = some (joinPath
            (if (pathSplit mp).1 = "" then joinPath (joinPath root "code") "sovabids"
             else (pathSplit mp).1)
            (if (pathSplit mp).2 = "" then "mappings.yml" else (pathSplit mp).2), md) ∧
      (apply_rules w src root rules mp fs).dirsMade
        = [(if (pathSplit mp).1 = "" then joinPath (joinPath root "code") "sovabids"
            else (pathSplit mp).1)] := by
  unfold apply_rules at h ⊢
  cases src with
  | path s =>
    try dsimp only at h ⊢
    cases hb : batchLoop w rules root (get_files_model w s rules) fs with
    | mk res fs2 =>
      rw [hb] at h
      cases res with
      | error e =>
        try dsimp only at h
        simp at h
      | ok maps =>
        try dsimp only at h ⊢
        simp only [Except.ok.injEq] at h
        subst h
        exact ⟨maps, batchLoop_ok_dryMaps w rules root _ fs maps fs2 hb, rfl, rfl, rfl⟩
  | files l =>
    cases l with
    | nil =>
      try dsimp only at h
      simp at h
    | cons f0 rest =>
      try dsimp only at h ⊢
      cases hb : batchLoop w rules root (f0 :: rest) fs with
      | mk res fs2 =>
        rw [hb] at h
        cases res with
        | error e =>
          try dsimp only at h
          simp at h
        | ok maps =>
          try dsimp only at h ⊢
          simp only [Except.ok.injEq] at h
          subst h
          exact ⟨maps, batchLoop_ok_dryMaps w rules root _ fs maps fs2 hb, rfl, rfl, rfl⟩

/-- Rules whose merged document carries `entities` and a `non-bids`
section, so every file of the batch succeeds. -/
def c9rules : Dict :=
  [("entities", Val.dict [("subject", Val.str "01")]), ("non-bids", Val.dict [])]

/-- C9 counterexample: with `mapping_path = "custom.yml"` given, the
document is NOT written to `custom.yml`: `os.path.split` leaves an empty
folder component, so the folder default `<bids_path>/code/sovabids` is
applied even though a mapping path was given, and the file lands at
`out/code/sovabids/custom.yml`. -/
theorem C9_counterexample :
    ((apply_rules wTest (Source.files ["a.vhdr"]) "out" c9rules "custom.yml" []).written.map
        Prod.fst) = some "out/code/sovabids/custom.yml" ∧
    "out/code/sovabids/custom.yml" ≠ "custom.yml" :=
  ⟨rfl, by decide⟩

/-- C9 witness: the amended theorem at a concrete one-file batch with
the default mapping path. -/
theorem C9_mapping_file_witness :
    ∃ ms, dryMaps wTest c9rules "out"
        (sourceFilepaths wTest (Source.files ["a.vhdr"]) c9rules) = some ms ∧
      ([("General", Val.dict [("entities", Val.dict [("subject", Val.str "01")]),
           ("non-bids", Val.dict []),
           ("IO", Val.dict [("source", Val.vlist [Val.str "a.vhdr"]),
             ("target", Val.str "out")])]),
        ("Individual", Val.vlist [Val.dict [("entities", Val.dict [("subject", Val.str "01")]),
           ("non-bids", Val.dict []),
           ("IO", Val.dict [("target", Val.str "out/sub-01/eeg/sub-01_eeg.vhdr"),
             ("source", Val.str "a.vhdr")])]])] : Dict)
        = [("General", Val.dict (storeD c9rules "IO"
            (Val.dict [("source", sourceVal (Source.files ["a.vhdr"])),
              ("target", Val.str "out")]))),
           ("Individual", Val.vlist (ms.map Val.dict))] ∧
      (apply_rules wTest (Source.files ["a.vhdr"]) "out" c9rules "" []).written
        = some (joinPath
            (if (pathSplit "").1 = "" then joinPath (joinPath "out" "code") "sovabids"
             else (pathSplit "").1)
            (if (pathSplit "").2 = "" then "mappings.yml" else (pathSplit "").2),
            [("General", Val.dict [("entities", Val.dict [("subject", Val.str "01")]),
               ("non-bids", Val.dict []),
               ("IO", Val.dict [("source", Val.vlist [Val.str "a.vhdr"]),
                 ("target", Val.str "out")])]),
             ("Individual", Val.vlist [Val.dict [("entities", Val.dict [("subject", Val.str "01")]),
               ("non-bids", Val.dict []),
               ("IO", Val.dict [("target", Val.str "out/sub-01/eeg/sub-01_eeg.vhdr"),
                 ("source", Val.str "a.vhdr")])]])]) ∧
      (apply_rules wTest (Source.files ["a.vhdr"]) "out" c9rules "" []).dirsMade
        = [(if (pathSplit "").1 = "" then joinPath (joinPath "out" "code") "sovabids"
            else (pathSplit "").1)] :=
  C9_mapping_file wTest (Source.files ["a.vhdr"]) "out" c9rules "" []
    [("General", Val.dict [("entities", Val.dict [("subject", Val.str "01")]),
       ("non-bids", Val.dict []),
       ("IO", Val.dict [("source", Val.vlist [Val.str "a.vhdr"]),
         ("target", Val.str "out")])]),
     ("Individual", Val.vlist [Val.dict [("entities", Val.dict [("subject", Val.str "01")]),
       ("non-bids", Val.dict []),
       ("IO", Val.dict [("target", Val.str "out/sub-01/eeg/sub-01_eeg.vhdr"),
         ("source", Val.str "a.vhdr")])]])]
    (by rfl)

/-- Rules with a string-list `code_execution` hook. -/
def c8rules : Dict :=
  [("entities", Val.dict [("subject", Val.str "01")]),
   ("non-bids", Val.dict [("code_execution", Val.vlist [Val.str "cmd1", Val.str "cmd2"])])]

/-- C8 witness: a two-command hook list whose first command raises;
result and file set match the no-failure run, and the log holds exactly
the first command's message. -/
theorem C8_hooks_nonfatal_witness :
    (((applySingle { wTest with execRaises := fun c => c == "cmd1" } "a.vhdr" c8rules
          "out" false false []).result
        = (applySingle wTest "a.vhdr" c8rules "out" false false []).result)
      ∧ (applySingle { wTest with execRaises := fun c => c == "cmd1" } "a.vhdr" c8rules
          "out" false false []).fs
        = (applySingle wTest "a.vhdr" c8rules "out" false false []).fs)
    ∧ (applySingle { wTest with execRaises := fun c => c == "cmd1" } "a.vhdr" c8rules
        "out" false false []).log
        = hookLogOf { wTest with execRaises := fun c => c == "cmd1" }
            ((hookCommands
              [("code_execution", Val.vlist [Val.str "cmd1", Val.str "cmd2"])]).getD []) :=
  C8_hooks_nonfatal wTest (fun c => c == "cmd1") "a.vhdr" c8rules c8rules
    [("code_execution", Val.vlist [Val.str "cmd1", Val.str "cmd2"])] "out" false false []
    (by rfl) (by rfl) (by rfl) (by rfl)
